import Mathlib

/-!
Verification of the nullboot core (canonical/nullboot) against its
natural-language specification.

The Go sources are shallowly embedded: byte slices become `List Nat`,
Go maps become association lists, the injectable services (EFI variable
backend, device-path construction, secboot/TPM hooks) become explicit
function or value parameters, and fallible Go calls return a `GoResult`
that distinguishes returned errors from runtime panics.

Parts of the repository that live behind cgo (libefivar) or in files not
shipped with the source tree (the trusted-assets store) are modelled from
the specification and from the repository's own test vectors; each such
definition carries a doc comment saying so.
-/

namespace Nullboot

/-- Byte strings (Go `[]byte`) are modeled as lists of naturals; every
element is below 256 in practice. -/
abbrev Bytes := List Nat

/-- Result of a Go call: a normal value, a returned `error`, or a runtime
panic (index out of range, explicit `panic`, ...). -/
inductive GoResult (α : Type) where
  | ok (val : α)
  | error (msg : String)
  | panicked (msg : String)
deriving DecidableEq, Repr

/-- Little-endian 16-bit encoding (`binary.LittleEndian.PutUint16`). -/
def le16 (n : Nat) : Bytes := [n % 256, n / 256 % 256]

/-- Little-endian 32-bit encoding. -/
def le32 (n : Nat) : Bytes := [n % 256, n / 256 % 256, n / 65536 % 256, n / 16777216 % 256]

/-- UCS-2 (UTF-16LE, BMP only) encoding of a string, without terminator. -/
def ucs2OfString (s : String) : Bytes :=
  (s.data.map (fun c => [c.toNat % 256, c.toNat / 256 % 256])).flatten

/-! ## Load-option codec (src/efivars/loadoption.go) -/

/-- An EFI load option; as in the Go source it is just its encoded bytes. -/
structure LoadOption where
  Data : Bytes
deriving DecidableEq, Repr

/-- `LoadOptionActive` attribute constant. -/
def LoadOptionActive : Nat := 1

/-- Scan a byte string from offset `i` (stepping two bytes at a time) for a
UCS-2 NUL code unit; returns the offset just past it.  Fuel-driven so that
the definition evaluates by kernel reduction. -/
def ucs2NulEndAux (b : Bytes) : Nat → Nat → Option Nat
  | _, 0 => none
  | i, fuel+1 =>
    match b.drop i with
    | 0 :: 0 :: _ => some (i + 2)
    | _ :: _ :: _ => ucs2NulEndAux b (i + 2) fuel
    | _ => none

/-- Offset just past the UCS-2 NUL terminator of the string starting at
offset `i`, if any. -/
def ucs2NulEnd (b : Bytes) (i : Nat) : Option Nat := ucs2NulEndAux b i b.length

/-- Structural validity of an encoded EFI load option.

Modelled from the spec: the source calls `efi_loadopt_is_valid` of the
external libefivar C library, which is not part of this repository.  Per
the spec a load option is 4 bytes of attributes, a 2-byte file-path-list
length, a NUL-terminated UCS-2 description, the device-path list of the
given length, then optional data. -/
def efi_loadopt_is_valid (b : Bytes) : Bool :=
  if b.length < 6 then false
  else
    match ucs2NulEnd b 6 with
    | none => false
    | some descEnd =>
      let fplen := b.getD 4 0 + 256 * b.getD 5 0
      decide (descEnd + fplen ≤ b.length)

/-- `NewLoadOptionFromVariable` reinterprets a byte slice as a load option.
The input is `Option Bytes` because Go distinguishes a nil slice from an
empty one.  Faithful to the source order: the explicit nil check panics
first; then the address of `variable[0]` is taken, which panics on an
empty (non-nil) slice before the `len(variable) == 0` test can run. -/
def NewLoadOptionFromVariable (v? : Option Bytes) : GoResult LoadOption :=
  match v? with
  | none => .panicked "nil value"
  | some v =>
    if v.length = 0 then .panicked "index out of range [0] with length 0"
    else if v.length = 0 ∨ ¬ efi_loadopt_is_valid v then .error "Invalid load option"
    else .ok ⟨v⟩

/-- Serialization of a load option.

Modelled from the spec: the source calls `efi_loadopt_create` of the
external libefivar C library.  Per the spec the encoding is the 32-bit
attributes, the 16-bit device-path-list length, the UCS-2 description
terminated by a NUL code unit, the device-path bytes, then the caller's
optional data. -/
def efi_loadopt_create (attributes : Nat) (dp : Bytes) (desc : String)
    (optionalData : Bytes) : Bytes :=
  le32 attributes ++ le16 dp.length ++ ucs2OfString desc ++ [0, 0] ++ dp ++ optionalData

/-- `NewLoadOption` builds a load option and re-parses it; taking the
address of `dp[0]` panics on an empty device path. -/
def NewLoadOption (attributes : Nat) (dp : Bytes) (desc : String)
    (optionalData : Bytes) : GoResult LoadOption :=
  if dp.length = 0 then .panicked "index out of range [0] with length 0"
  else NewLoadOptionFromVariable (some (efi_loadopt_create attributes dp desc optionalData))

/-- `NewLoadOptionArgumentFromUTF8` converts a UTF-8 string into a UCS-2
argument.  The cgo binding `efi_loadopt_args_as_ucs2` is external; per the
repository's own test it yields the UCS-2 code units without a trailing
NUL, and the empty string yields a nil slice. -/
def NewLoadOptionArgumentFromUTF8 (data : String) : Bytes := ucs2OfString data

/-- The valid 66-byte load option used by the repository's own tests
("USBR BOOT CDROM"). -/
def UsbrBootCdrom : Bytes :=
  [9, 0, 0, 0, 28, 0, 85, 0, 83, 0, 66, 0, 82, 0, 32, 0, 66, 0, 79, 0, 79, 0,
   84, 0, 32, 0, 67, 0, 68, 0, 82, 0, 79, 0, 77, 0, 0, 0, 2, 1, 12, 0, 208,
   65, 3, 10, 0, 0, 0, 0, 1, 1, 6, 0, 0, 20, 3, 5, 6, 0, 11, 1, 127, 255, 4, 0]

/-- C2: the codec is a bijection on valid inputs.  Decoding succeeds only
by reinterpreting the very bytes it was given, so encoding the result (its
`Data` field, which is what the boot manager stores in `Boot####`) yields
the input back; and any load option built by `NewLoadOption` decodes to
itself. -/
theorem C2_loadoption_roundtrip :
    (∀ b lo, NewLoadOptionFromVariable (some b) = .ok lo → lo.Data = b) ∧
    (∀ attrs dp desc opt x, NewLoadOption attrs dp desc opt = .ok x →
      NewLoadOptionFromVariable (some x.Data) = .ok x) := by
  have hdec : ∀ b lo, NewLoadOptionFromVariable (some b) = .ok lo → lo.Data = b := by
    intro b lo h
    obtain ⟨d⟩ := lo
    by_cases h0 : b.length = 0
    · simp [NewLoadOptionFromVariable, h0] at h
    · by_cases h1 : efi_loadopt_is_valid b
      · simp [NewLoadOptionFromVariable, h0, h1] at h
        show d = b
        first
        | exact h
        | exact h.symm
      · simp [NewLoadOptionFromVariable, h0, h1] at h
  refine ⟨hdec, ?_⟩
  intro attrs dp desc opt x h
  by_cases hdp : dp.length = 0
  · simp [NewLoadOption, hdp] at h
  · have h2 : NewLoadOptionFromVariable
        (some (efi_loadopt_create attrs dp desc opt)) = .ok x := by
      simpa [NewLoadOption, hdp] using h
    have hx := hdec _ _ h2
    rw [hx]
    exact h2

/-- Witness for C2 at the repository's own test vector. -/
theorem C2_loadoption_roundtrip_witness :
    NewLoadOptionFromVariable (some UsbrBootCdrom) = .ok ⟨UsbrBootCdrom⟩ ∧
    (LoadOption.mk UsbrBootCdrom).Data = UsbrBootCdrom := by
  have h : NewLoadOptionFromVariable (some UsbrBootCdrom) = .ok ⟨UsbrBootCdrom⟩ := by decide
  exact ⟨h, C2_loadoption_roundtrip.1 UsbrBootCdrom ⟨UsbrBootCdrom⟩ h⟩

/-- C10: the decoder is not total.  A nil slice hits the explicit panic;
a non-nil empty slice panics taking the address of its first element
before the zero-length test is reached; and the "Invalid load option"
error is only returned for non-empty inputs. -/
theorem C10_decoder_not_total :
    NewLoadOptionFromVariable none = .panicked "nil value" ∧
    NewLoadOptionFromVariable (some []) = .panicked "index out of range [0] with length 0" ∧
    (∀ b m, NewLoadOptionFromVariable (some b) = .error m →
      b ≠ [] ∧ m = "Invalid load option") := by
  refine ⟨rfl, rfl, ?_⟩
  intro b m h
  by_cases h0 : b.length = 0
  · simp [NewLoadOptionFromVariable, h0] at h
  · refine ⟨fun hb => h0 (by simp [hb]), ?_⟩
    by_cases h1 : efi_loadopt_is_valid b
    · simp [NewLoadOptionFromVariable, h0, h1] at h
    · simp [NewLoadOptionFromVariable, h0, h1] at h
      exact h.symm

/-- Witness for C10's error clause at the repository's own invalid test
vector. -/
theorem C10_decoder_not_total_witness :
    [0, 1] ≠ ([] : Bytes) ∧ "Invalid load option" = "Invalid load option" := by
  exact C10_decoder_not_total.2.2 [0, 1] "Invalid load option" (by decide)

/-! ## EFI variable store

The boot manager reaches the firmware through the `EFIVariables`
abstraction (src/efibootmgr/efivars.go).  All of its traffic uses the
global GUID, so the store is modeled as an association list from variable
name to payload and attributes, with the semantics of the repository's
in-memory mock: `SetVariable` with an empty payload deletes the variable
(which is also what `DelVariable` relies on). -/

/-- Variable store: (name, payload, attributes) triples, global GUID only. -/
abbrev VarStore := List (String × Bytes × Nat)

/-- Look a variable up by name. -/
def storeGet : VarStore → String → Option (Bytes × Nat)
  | [], _ => none
  | (n, d, a) :: rest, name => if n = name then some (d, a) else storeGet rest name

/-- Remove a variable. -/
def storeDelete : VarStore → String → VarStore
  | [], _ => []
  | (n, d, a) :: rest, name =>
    if n = name then storeDelete rest name else (n, d, a) :: storeDelete rest name

/-- Insert or replace a variable. -/
def storePut : VarStore → String → Bytes → Nat → VarStore
  | [], name, data, attrs => [(name, data, attrs)]
  | (n, d, a) :: rest, name, data, attrs =>
    if n = name then (name, data, attrs) :: rest
    else (n, d, a) :: storePut rest name data attrs

/-- `SetVariable` (mock semantics): an empty payload deletes the variable. -/
def SetVariable (s : VarStore) (name : String) (data : Bytes) (attrs : Nat) : VarStore :=
  if data.length = 0 then storeDelete s name else storePut s name data attrs

/-- `GetVariable`; a missing variable is an error (`efi.ErrVarNotExist`). -/
def GetVariable (s : VarStore) (name : String) : GoResult (Bytes × Nat) :=
  match storeGet s name with
  | some (d, a) => .ok (d, a)
  | none => .error "variable does not exist"

/-- `DelVariable`: read the attributes, then write an empty payload. -/
def DelVariable (s : VarStore) (name : String) : GoResult VarStore :=
  match storeGet s name with
  | some (_, attrs) => .ok (SetVariable s name [] attrs)
  | none => .error "variable does not exist"

/-- The variable names of the store, in store order (the determinization
of Go's map iteration order). -/
def storeNames (s : VarStore) : List String := s.map (fun e => e.1)

/-! ## Boot manager (src/efibootmgr/bootmgr.go) -/

/-- Maximum number of boot entries (`maxBootEntries`). -/
def maxBootEntries : Nat := 65535

/-- `efi.AttributeNonVolatile | efi.AttributeBootserviceAccess |
efi.AttributeRuntimeAccess`. -/
def attrsNvBsRt : Nat := 7

/-- A parsed `Boot####` variable. -/
structure BootEntryVariable where
  BootNumber : Nat
  Data : Bytes
  Attributes : Nat
  loadOption : LoadOption
deriving DecidableEq, Repr

/-- The in-memory `Boot####` map, as an association list. -/
abbrev EntryMap := List (Nat × BootEntryVariable)

/-- Map lookup. -/
def entLookup : EntryMap → Nat → Option BootEntryVariable
  | [], _ => none
  | (k, e) :: rest, n => if k = n then some e else entLookup rest n

/-- Map insert-or-replace. -/
def entInsert : EntryMap → Nat → BootEntryVariable → EntryMap
  | [], n, e => [(n, e)]
  | (k, e0) :: rest, n, e =>
    if k = n then (n, e) :: rest else (k, e0) :: entInsert rest n e

/-- Map erase. -/
def entErase : EntryMap → Nat → EntryMap
  | [], _ => []
  | (k, e) :: rest, n => if k = n then entErase rest n else (k, e) :: entErase rest n

/-- The boot manager state: entries, cached boot order, and the attributes
observed on the `BootOrder` variable when it was read. -/
structure BootManager where
  entries : EntryMap
  bootOrder : List Nat
  bootOrderAttrs : Nat
deriving DecidableEq, Repr

/-- Uppercase-hex digit. -/
def hexDigit (n : Nat) : Char :=
  if n < 10 then Char.ofNat (48 + n) else Char.ofNat (55 + n)

/-- `fmt.Sprintf "%04X"` for numbers below 65536. -/
def hex04X (n : Nat) : String :=
  String.mk [hexDigit (n / 4096 % 16), hexDigit (n / 256 % 16),
             hexDigit (n / 16 % 16), hexDigit (n % 16)]

/-- The `Boot%04X` variable name of an entry number. -/
def bootVarName (n : Nat) : String := "Boot" ++ hex04X n

/-- Value of a hex digit, both cases, as `fmt.Sscanf %X` accepts. -/
def hexVal (c : Char) : Option Nat :=
  if 48 ≤ c.toNat ∧ c.toNat ≤ 57 then some (c.toNat - 48)
  else if 65 ≤ c.toNat ∧ c.toNat ≤ 70 then some (c.toNat - 55)
  else if 97 ≤ c.toNat ∧ c.toNat ≤ 102 then some (c.toNat - 87)
  else none

/-- Consume up to `max` leading hex digits. -/
def takeHex : List Char → Nat → List Nat
  | c :: rest, m + 1 =>
    match hexVal c with
    | some v => v :: takeHex rest m
    | none => []
  | _, _ => []

/-- The scan `fmt.Sscanf(name, "Boot%04X", ...)` combined with the
`len(name) == 8` guard of `NewBootManagerFromSystem`: the name must be 8
characters, start with the literal `Boot`, and carry at least one hex
digit right after it; up to four hex digits are consumed. -/
def scanBootNumber (name : String) : Option Nat :=
  if name.length = 8 ∧ name.data.take 4 = ['B', 'o', 'o', 't'] then
    match takeHex (name.data.drop 4) 4 with
    | [] => none
    | ds => some (ds.foldl (fun acc d => acc * 16 + d) 0)
  else none

/-- Decode a byte string into little-endian 16-bit values, as the
`BootOrder` parse loop does.  (On an odd-length payload the Go loop would
index past the slice; a trailing odd byte is ignored here and never arises
in the claims.) -/
def decodeLE16s : Bytes → List Nat
  | b0 :: b1 :: rest => (b0 + 256 * b1) :: decodeLE16s rest
  | _ => []

/-- The `Boot####` reading loop of `NewBootManagerFromSystem`: names that
do not scan are skipped; a read failure aborts; a payload that fails
load-option validation is only logged, and the entry is still recorded
with the zero-value load option. -/
def loadEntries (s : VarStore) : List String → EntryMap → GoResult EntryMap
  | [], acc => .ok acc
  | name :: rest, acc =>
    match scanBootNumber name with
    | none => loadEntries s rest acc
    | some bootNum =>
      match storeGet s name with
      | none => .error ("cannot read " ++ name)
      | some (data, attrs) =>
        match NewLoadOptionFromVariable (some data) with
        | .panicked m => .panicked m
        | .ok lo => loadEntries s rest (entInsert acc bootNum ⟨bootNum, data, attrs, lo⟩)
        | .error _ => loadEntries s rest (entInsert acc bootNum ⟨bootNum, data, attrs, ⟨[]⟩⟩)

/-- `NewBootManagerFromSystem` over the mock variable backend: read and
decode `BootOrder`, then read every global variable whose name matches
`Boot%04X`. -/
def NewBootManagerFromSystem (s : VarStore) : GoResult BootManager :=
  match storeGet s "BootOrder" with
  | none => .error "cannot read BootOrder variable"
  | some (bootOrderBytes, bootOrderAttrs) =>
    match loadEntries s (storeNames s) [] with
    | .ok entries => .ok ⟨entries, decodeLE16s bootOrderBytes, bootOrderAttrs⟩
    | .error m => .error m
    | .panicked m => .panicked m

/-- The scan of `NextFreeEntry`, counting up from `i` with explicit fuel
(the fuel starts at `maxBootEntries` so indices 0 … 65534 are tried). -/
def nextFreeEntryAux (entries : EntryMap) : Nat → Nat → Option Nat
  | _, 0 => none
  | i, fuel + 1 =>
    if entLookup entries i = none then some i else nextFreeEntryAux entries (i + 1) fuel

/-- `NextFreeEntry`. -/
def NextFreeEntry (bm : BootManager) : GoResult Nat :=
  match nextFreeEntryAux bm.entries 0 maxBootEntries with
  | some i => .ok i
  | none => .error "Maximum number of boot entries exceeded"

/-- The duplicate scan of `FindOrCreateEntry`: an existing entry whose
encoded load-option bytes are byte-equal and whose attributes coincide.
(Association-list order stands in for Go's map iteration order.) -/
def findDup : EntryMap → Bytes → Nat → Option Nat
  | [], _, _ => none
  | (_, e) :: rest, d, a =>
    if e.loadOption.Data = d ∧ e.Attributes = a then some e.BootNumber
    else findDup rest d a

/-- A logical boot entry (src/efibootmgr/shim.go). -/
structure BootEntry where
  Filename : String
  Label : String
  Options : String
  Description : String
deriving DecidableEq, Repr

/-- `path.Join` for the two-component case used by `FindOrCreateEntry`
(inputs are clean paths in this development). -/
def pathJoin (a b : String) : String :=
  if a = "" then b else a ++ "/" ++ b

/-- Result of `FindOrCreateEntry`: the returned number and error of the Go
signature, the updated manager and store, and the list of variable writes
performed; or a runtime panic. -/
inductive FoCResult where
  | ret (n : Int) (err : Option String) (bm : BootManager) (s : VarStore)
      (writes : List (String × Bytes × Nat))
  | panicked (msg : String)
deriving DecidableEq, Repr

/-- `FindOrCreateEntry`.  The device-path construction
(`appEFIVars.NewDevicePath` with `BootAbbrevHD`) is an injected service,
passed as `newDevicePath`. -/
def FindOrCreateEntry (bm : BootManager) (s : VarStore)
    (newDevicePath : String → GoResult Bytes)
    (entry : BootEntry) (relativeTo : String) : FoCResult :=
  match NextFreeEntry bm with
  | .error m => .ret (-1) (some m) bm s []
  | .panicked m => .panicked m
  | .ok bootNext =>
    match newDevicePath (pathJoin relativeTo entry.Filename) with
    | .error m => .ret (-1) (some m) bm s []
    | .panicked m => .panicked m
    | .ok dp =>
      let optionalData := NewLoadOptionArgumentFromUTF8 entry.Options
      match NewLoadOption LoadOptionActive dp entry.Label optionalData with
      | .error m => .ret (-1) (some m) bm s []
      | .panicked m => .panicked m
      | .ok loadoption =>
        let entryVar : BootEntryVariable :=
          ⟨bootNext, loadoption.Data, attrsNvBsRt, loadoption⟩
        match findDup bm.entries loadoption.Data attrsNvBsRt with
        | some existingNum => .ret existingNum none bm s []
        | none =>
          .ret bootNext none
            { bm with entries := entInsert bm.entries bootNext entryVar }
            (SetVariable s (bootVarName bootNext) entryVar.Data entryVar.Attributes)
            [(bootVarName bootNext, entryVar.Data, entryVar.Attributes)]

/-- `DeleteEntry`: absent entries are an error; otherwise the variable is
deleted, the entry is dropped from the map, and the cached boot order is
filtered — the `BootOrder` variable itself is not written. -/
def DeleteEntry (bm : BootManager) (s : VarStore) (bootNum : Nat) :
    Option String × BootManager × VarStore :=
  match entLookup bm.entries bootNum with
  | none => (some ("Tried deleting a non-existing variable " ++ bootVarName bootNum), bm, s)
  | some _ =>
    match DelVariable s (bootVarName bootNum) with
    | .error m => (some m, bm, s)
    | .panicked m => (some m, bm, s)
    | .ok s2 =>
      (none,
       ⟨entErase bm.entries bootNum,
        bm.bootOrder.filter (fun x => x ≠ bootNum),
        bm.bootOrderAttrs⟩,
       s2)

/-- The combining loop of `PrependAndSetBootOrder`: walk the candidate
sequence, keeping a number when it has an in-memory entry and is not
already in the accumulated order. -/
def prependLoop (entries : EntryMap) : List Nat → List Nat → List Nat
  | acc, [] => acc
  | acc, num :: rest =>
    let isDuplicate := acc.contains num
    let acc2 := if (entLookup entries num).isSome ∧ ¬isDuplicate then acc ++ [num] else acc
    prependLoop entries acc2 rest

/-- `PrependAndSetBootOrder`: combine, encode little-endian 16-bit, write
`BootOrder` with the attributes observed at load, cache the new order.
The performed write is returned as the last component. -/
def PrependAndSetBootOrder (bm : BootManager) (s : VarStore) (head : List Nat) :
    BootManager × VarStore × (String × Bytes × Nat) :=
  let newOrder := prependLoop bm.entries [] (head ++ bm.bootOrder)
  let output := (newOrder.map le16).flatten
  ({ bm with bootOrder := newOrder },
   SetVariable s "BootOrder" output bm.bootOrderAttrs,
   ("BootOrder", output, bm.bootOrderAttrs))

/-- First-occurrence deduplication, the specification-side description of
the boot-order combination ("deduplication keeping the first
occurrence"). -/
def dedupFirstAux (seen : List Nat) : List Nat → List Nat
  | [] => []
  | x :: xs =>
    if seen.contains x then dedupFirstAux seen xs
    else x :: dedupFirstAux (x :: seen) xs

/-- First-occurrence deduplication of a list. -/
def dedupFirst (xs : List Nat) : List Nat := dedupFirstAux [] xs

theorem storeGet_storeDelete_self (s : VarStore) (name : String) :
    storeGet (storeDelete s name) name = none := by
  induction s with
  | nil => rfl
  | cons hd tl ih =>
    obtain ⟨n, d, a⟩ := hd
    by_cases h : n = name
    · simp [storeDelete, h, ih]
    · simp [storeDelete, storeGet, h, ih]

theorem storeGet_storeDelete_ne (s : VarStore) (name other : String)
    (h : other ≠ name) : storeGet (storeDelete s name) other = storeGet s other := by
  induction s with
  | nil => rfl
  | cons hd tl ih =>
    obtain ⟨n, d, a⟩ := hd
    by_cases hn : n = name
    · subst hn
      have hno : ¬(n = other) := fun hc => h hc.symm
      simp [storeDelete, storeGet, hno, ih]
    · by_cases ho : n = other
      · simp [storeDelete, storeGet, hn, ho, h]
      · simp [storeDelete, storeGet, hn, ho, ih]

theorem bootVarName_ne_bootOrder (n : Nat) : bootVarName n ≠ "BootOrder" := by
  intro h
  have h8 : ((bootVarName n).data).length = 8 := rfl
  rw [h] at h8
  exact absurd h8 (by decide)

/-- C7: `DeleteEntry` of an absent number is an error that changes
nothing; a successful deletion removes the `Boot####` variable from the
store and the number from the cached order, and does not write the
`BootOrder` variable. -/
theorem C7_delete_entry (bm : BootManager) (s : VarStore) (n : Nat) :
    (entLookup bm.entries n = none →
      DeleteEntry bm s n =
        (some ("Tried deleting a non-existing variable " ++ bootVarName n), bm, s)) ∧
    (∀ bm2 s2, DeleteEntry bm s n = (none, bm2, s2) →
      storeGet s2 (bootVarName n) = none ∧
      bm2.entries = entErase bm.entries n ∧
      bm2.bootOrder = bm.bootOrder.filter (fun x => x ≠ n) ∧
      storeGet s2 "BootOrder" = storeGet s "BootOrder") := by
  constructor
  · intro habs
    simp [DeleteEntry, habs]
  · intro bm2 s2 h
    unfold DeleteEntry at h
    cases hl : entLookup bm.entries n with
    | none => rw [hl] at h; exact absurd (congrArg Prod.fst h) (by simp)
    | some e =>
      rw [hl] at h
      unfold DelVariable at h
      cases hg : storeGet s (bootVarName n) with
      | none => rw [hg] at h; exact absurd (congrArg Prod.fst h) (by simp)
      | some da =>
        obtain ⟨d, a⟩ := da
        rw [hg] at h
        dsimp only at h
        have hset : SetVariable s (bootVarName n) [] a = storeDelete s (bootVarName n) := rfl
        rw [hset] at h
        have hbm2 : bm2 = ⟨entErase bm.entries n,
            bm.bootOrder.filter (fun x => x ≠ n), bm.bootOrderAttrs⟩ :=
          (congrArg (fun x => x.2.1) h).symm
        have hs2 : s2 = storeDelete s (bootVarName n) :=
          (congrArg (fun x => x.2.2) h).symm
        subst hbm2
        subst hs2
        refine ⟨storeGet_storeDelete_self s (bootVarName n), rfl, rfl, ?_⟩
        exact storeGet_storeDelete_ne s (bootVarName n) "BootOrder"
          (fun hc => bootVarName_ne_bootOrder n hc.symm)

/-- Witness for C7 on a concrete two-entry state. -/
theorem C7_delete_entry_witness :
    storeGet (DeleteEntry
        ⟨[(1, ⟨1, [0, 1], 42, ⟨[]⟩⟩)], [1, 2], 123⟩
        [("Boot0001", [0, 1], 42), ("BootOrder", [1, 0, 2, 0], 123)] 1).2.2 "Boot0001" = none ∧
    (DeleteEntry ⟨[(1, ⟨1, [0, 1], 42, ⟨[]⟩⟩)], [1, 2], 123⟩
        [("Boot0001", [0, 1], 42), ("BootOrder", [1, 0, 2, 0], 123)] 1).2.1.bootOrder = [2] := by
  have h := (C7_delete_entry ⟨[(1, ⟨1, [0, 1], 42, ⟨[]⟩⟩)], [1, 2], 123⟩
    [("Boot0001", [0, 1], 42), ("BootOrder", [1, 0, 2, 0], 123)] 1).2
    ⟨[], [2], 123⟩ [("BootOrder", [1, 0, 2, 0], 123)] (by decide)
  refine ⟨?_, ?_⟩
  · have hd : (DeleteEntry ⟨[(1, ⟨1, [0, 1], 42, ⟨[]⟩⟩)], [1, 2], 123⟩
        [("Boot0001", [0, 1], 42), ("BootOrder", [1, 0, 2, 0], 123)] 1) =
        (none, ⟨[], [2], 123⟩, [("BootOrder", [1, 0, 2, 0], 123)]) := by decide
    rw [hd]
    decide
  · have hd : (DeleteEntry ⟨[(1, ⟨1, [0, 1], 42, ⟨[]⟩⟩)], [1, 2], 123⟩
        [("Boot0001", [0, 1], 42), ("BootOrder", [1, 0, 2, 0], 123)] 1) =
        (none, ⟨[], [2], 123⟩, [("BootOrder", [1, 0, 2, 0], 123)]) := by decide
    rw [hd]

theorem contains_cons_eq (x y : Nat) (s : List Nat) :
    (x :: s).contains y = (decide (y = x) || s.contains y) := by
  simp [List.contains_cons]

theorem contains_nil_eq (y : Nat) : (([] : List Nat).contains y) = false := rfl

theorem contains_append_eq (a b : List Nat) (y : Nat) :
    ((a ++ b).contains y) = (a.contains y || b.contains y) := by
  induction a with
  | nil => simp [contains_nil_eq]
  | cons hd tl ih =>
    rw [List.cons_append, contains_cons_eq, contains_cons_eq, ih, Bool.or_assoc]

theorem dedupFirstAux_cons_mem (s : List Nat) (x : Nat) (xs : List Nat)
    (h : s.contains x = true) :
    dedupFirstAux s (x :: xs) = dedupFirstAux s xs := by
  simp only [dedupFirstAux]
  rw [if_pos h]

theorem dedupFirstAux_cons_not_mem (s : List Nat) (x : Nat) (xs : List Nat)
    (h : s.contains x = false) :
    dedupFirstAux s (x :: xs) = x :: dedupFirstAux (x :: s) xs := by
  simp only [dedupFirstAux]
  rw [if_neg (fun hc => by rw [hc] at h; exact Bool.noConfusion h)]

theorem dedupFirstAux_congr (xs : List Nat) :
    ∀ s1 s2 : List Nat, (∀ y, s1.contains y = s2.contains y) →
      dedupFirstAux s1 xs = dedupFirstAux s2 xs := by
  induction xs with
  | nil => intro s1 s2 _; rfl
  | cons x rest ih =>
    intro s1 s2 hmem
    cases hx : s2.contains x with
    | true =>
      rw [dedupFirstAux_cons_mem s1 x rest ((hmem x).trans hx),
          dedupFirstAux_cons_mem s2 x rest hx]
      exact ih s1 s2 hmem
    | false =>
      rw [dedupFirstAux_cons_not_mem s1 x rest ((hmem x).trans hx),
          dedupFirstAux_cons_not_mem s2 x rest hx]
      have hcons : ∀ y, (x :: s1).contains y = (x :: s2).contains y := by
        intro y
        rw [contains_cons_eq, contains_cons_eq, hmem y]
      rw [ih (x :: s1) (x :: s2) hcons]

theorem filter_dedupFirstAux_drop (p : Nat → Bool) (xs : List Nat) :
    ∀ s : List Nat, ∀ x, p x = false →
      (dedupFirstAux (x :: s) xs).filter p = (dedupFirstAux s xs).filter p := by
  induction xs with
  | nil => intro s x _; rfl
  | cons y rest ih =>
    intro s x hpx
    cases hy : s.contains y with
    | true =>
      have hy2 : (x :: s).contains y = true := by
        rw [contains_cons_eq, hy, Bool.or_true]
      rw [dedupFirstAux_cons_mem _ y rest hy2, dedupFirstAux_cons_mem _ y rest hy]
      exact ih s x hpx
    | false =>
      by_cases hyx : y = x
      · subst hyx
        have hy2 : (y :: s).contains y = true := by
          rw [contains_cons_eq]
          simp
        rw [dedupFirstAux_cons_mem _ y rest hy2, dedupFirstAux_cons_not_mem _ y rest hy]
        rw [List.filter_cons_of_neg (by simp [hpx])]
      · have hy2 : (x :: s).contains y = false := by
          rw [contains_cons_eq, hy]
          simp [hyx]
        rw [dedupFirstAux_cons_not_mem _ y rest hy2, dedupFirstAux_cons_not_mem _ y rest hy]
        have hcongr : dedupFirstAux (y :: x :: s) rest = dedupFirstAux (x :: y :: s) rest := by
          apply dedupFirstAux_congr
          intro z
          rw [contains_cons_eq, contains_cons_eq, contains_cons_eq, contains_cons_eq]
          cases decide (z = y) <;> cases decide (z = x) <;> simp
        cases hpy : p y with
        | true =>
          rw [List.filter_cons_of_pos (by simp [hpy]), List.filter_cons_of_pos (by simp [hpy])]
          rw [hcongr, ih (y :: s) x hpx]
        | false =>
          rw [List.filter_cons_of_neg (by simp [hpy]), List.filter_cons_of_neg (by simp [hpy])]
          rw [hcongr, ih (y :: s) x hpx]

theorem prependLoop_cons (entries : EntryMap) (acc : List Nat) (x : Nat) (xs : List Nat) :
    prependLoop entries acc (x :: xs) =
      prependLoop entries
        (if (entLookup entries x).isSome ∧ ¬acc.contains x then acc ++ [x] else acc) xs := rfl

theorem prependLoop_spec (entries : EntryMap) (xs : List Nat) :
    ∀ acc : List Nat, (∀ a ∈ acc, (entLookup entries a).isSome = true) →
      prependLoop entries acc xs =
        acc ++ (dedupFirstAux acc xs).filter (fun n => (entLookup entries n).isSome) := by
  induction xs with
  | nil => intro acc _; simp [prependLoop, dedupFirstAux]
  | cons x rest ih =>
    intro acc hacc
    rw [prependLoop_cons]
    cases hdup : acc.contains x with
    | true =>
      rw [if_neg (by simp [hdup]), dedupFirstAux_cons_mem _ x rest hdup]
      exact ih acc hacc
    | false =>
      rw [dedupFirstAux_cons_not_mem _ x rest hdup]
      cases hex : (entLookup entries x).isSome with
      | true =>
        rw [if_pos ⟨rfl, by simp⟩]
        have hacc2 : ∀ a ∈ acc ++ [x], (entLookup entries a).isSome = true := by
          intro a ha
          rcases List.mem_append.mp ha with h | h
          · exact hacc a h
          · simp at h
            subst h
            exact hex
        rw [ih (acc ++ [x]) hacc2]
        have hsingle : ∀ z : Nat, (([x] : List Nat).contains z) = decide (z = x) := by
          intro z
          rw [contains_cons_eq, contains_nil_eq, Bool.or_false]
        have hcongr : dedupFirstAux (acc ++ [x]) rest = dedupFirstAux (x :: acc) rest := by
          apply dedupFirstAux_congr
          intro z
          rw [contains_append_eq, hsingle z, contains_cons_eq]
          cases decide (z = x) <;> cases acc.contains z <;> simp
        rw [hcongr]
        rw [List.filter_cons_of_pos (by simp [hex])]
        simp [List.append_assoc]
      | false =>
        rw [if_neg (by simp [hex])]
        rw [ih acc hacc]
        rw [List.filter_cons_of_neg (by simp [hex])]
        rw [filter_dedupFirstAux_drop _ rest acc x (by simp [hex])]

/-- C3: after `PrependAndSetBootOrder(head)`, the cached order and the
payload written to `BootOrder` are `head ++ old order`, keeping the first
occurrence of each index and dropping indices without an in-memory entry,
encoded little-endian 16-bit, written with the attributes previously
observed on `BootOrder`. -/
theorem C3_prepend_and_set_boot_order (bm : BootManager) (s : VarStore) (head : List Nat) :
    (PrependAndSetBootOrder bm s head).1.bootOrder =
      (dedupFirst (head ++ bm.bootOrder)).filter (fun n => (entLookup bm.entries n).isSome) ∧
    (PrependAndSetBootOrder bm s head).2.2 =
      ("BootOrder",
       (((dedupFirst (head ++ bm.bootOrder)).filter
          (fun n => (entLookup bm.entries n).isSome)).map le16).flatten,
       bm.bootOrderAttrs) ∧
    (PrependAndSetBootOrder bm s head).1.entries = bm.entries := by
  have hloop := prependLoop_spec bm.entries (head ++ bm.bootOrder) [] (by intro a ha; cases ha)
  simp only [List.nil_append] at hloop
  refine ⟨?_, ?_, rfl⟩
  · simp [PrependAndSetBootOrder, hloop, dedupFirst]
  · simp [PrependAndSetBootOrder, hloop, dedupFirst]

theorem nextFreeEntryAux_spec (entries : EntryMap) :
    ∀ fuel i j, nextFreeEntryAux entries i fuel = some j →
      entLookup entries j = none ∧ i ≤ j ∧
      ∀ k, i ≤ k → k < j → entLookup entries k ≠ none := by
  intro fuel
  induction fuel with
  | zero =>
    intro i j h
    exact Option.noConfusion h
  | succ fuel ih =>
    intro i j h
    simp only [nextFreeEntryAux] at h
    by_cases hl : entLookup entries i = none
    · rw [if_pos hl] at h
      cases h
      exact ⟨hl, Nat.le_refl _, fun k hik hkj => absurd hkj (by omega)⟩
    · rw [if_neg hl] at h
      obtain ⟨hj, hij, hk⟩ := ih (i + 1) j h
      refine ⟨hj, by omega, fun k hik hkj => ?_⟩
      by_cases hki : k = i
      · subst hki
        exact hl
      · exact hk k (by omega) hkj

theorem NextFreeEntry_spec (bm : BootManager) (j : Nat) (h : NextFreeEntry bm = .ok j) :
    entLookup bm.entries j = none ∧ ∀ k, k < j → entLookup bm.entries k ≠ none := by
  unfold NextFreeEntry at h
  cases hfa : nextFreeEntryAux bm.entries 0 maxBootEntries with
  | none =>
    rw [hfa] at h
    exact GoResult.noConfusion h
  | some i =>
    rw [hfa] at h
    injection h with hij
    subst hij
    obtain ⟨h1, -, h3⟩ := nextFreeEntryAux_spec bm.entries maxBootEntries 0 i hfa
    exact ⟨h1, fun k hk => h3 k (Nat.zero_le _) hk⟩

theorem findDup_some (d : Bytes) (a : Nat) :
    ∀ m : EntryMap, ∀ k, findDup m d a = some k →
      ∃ key e, (key, e) ∈ m ∧ e.loadOption.Data = d ∧ e.Attributes = a ∧
        e.BootNumber = k := by
  intro m
  induction m with
  | nil =>
    intro k h
    exact Option.noConfusion h
  | cons hd tl ih =>
    intro k h
    obtain ⟨key0, e0⟩ := hd
    simp only [findDup] at h
    by_cases hc : e0.loadOption.Data = d ∧ e0.Attributes = a
    · rw [if_pos hc] at h
      cases h
      exact ⟨key0, e0, List.mem_cons_self _ _, hc.1, hc.2, rfl⟩
    · rw [if_neg hc] at h
      obtain ⟨key2, e2, hm, h1, h2, h3⟩ := ih k h
      exact ⟨key2, e2, List.mem_cons_of_mem _ hm, h1, h2, h3⟩

theorem findDup_none (d : Bytes) (a : Nat) :
    ∀ m : EntryMap, findDup m d a = none →
      ∀ key e, (key, e) ∈ m → ¬(e.loadOption.Data = d ∧ e.Attributes = a) := by
  intro m
  induction m with
  | nil =>
    intro _ key e hm
    cases hm
  | cons hd tl ih =>
    intro h key e hm
    obtain ⟨key0, e0⟩ := hd
    simp only [findDup] at h
    by_cases hc : e0.loadOption.Data = d ∧ e0.Attributes = a
    · rw [if_pos hc] at h
      exact Option.noConfusion h
    · rw [if_neg hc] at h
      rcases List.mem_cons.mp hm with heq | hm2
      · cases heq
        exact hc
      · exact ih h key e hm2

/-- C6: `FindOrCreateEntry` returns the number of an existing entry with
byte-equal load-option data and equal attributes, writing nothing, when
one exists; otherwise it writes the new option at the lowest free index
with attributes Non-Volatile | Bootservice-Access | Runtime-Access and
returns that index; any failure returns -1 with an error and changes
nothing. -/
theorem C6_find_or_create_entry (bm : BootManager) (s : VarStore)
    (ndp : String → GoResult Bytes) (entry : BootEntry) (relativeTo : String) :
    (∀ freeIdx dp lo,
      NextFreeEntry bm = .ok freeIdx →
      ndp (pathJoin relativeTo entry.Filename) = .ok dp →
      NewLoadOption LoadOptionActive dp entry.Label
        (NewLoadOptionArgumentFromUTF8 entry.Options) = .ok lo →
      ((∃ key e, (key, e) ∈ bm.entries ∧ e.loadOption.Data = lo.Data ∧
          e.Attributes = attrsNvBsRt) →
        ∃ key e, (key, e) ∈ bm.entries ∧ e.loadOption.Data = lo.Data ∧
          e.Attributes = attrsNvBsRt ∧
          FindOrCreateEntry bm s ndp entry relativeTo =
            .ret (e.BootNumber : Int) none bm s []) ∧
      ((¬ ∃ key e, (key, e) ∈ bm.entries ∧ e.loadOption.Data = lo.Data ∧
          e.Attributes = attrsNvBsRt) →
        entLookup bm.entries freeIdx = none ∧
        (∀ k, k < freeIdx → entLookup bm.entries k ≠ none) ∧
        FindOrCreateEntry bm s ndp entry relativeTo =
          .ret (freeIdx : Int) none
            ⟨entInsert bm.entries freeIdx ⟨freeIdx, lo.Data, attrsNvBsRt, lo⟩,
             bm.bootOrder, bm.bootOrderAttrs⟩
            (SetVariable s (bootVarName freeIdx) lo.Data attrsNvBsRt)
            [(bootVarName freeIdx, lo.Data, attrsNvBsRt)])) ∧
    (∀ n m bm2 s2 ws,
      FindOrCreateEntry bm s ndp entry relativeTo = .ret n (some m) bm2 s2 ws →
      n = -1 ∧ bm2 = bm ∧ s2 = s ∧ ws = []) := by
  constructor
  · intro freeIdx dp lo hfree hdp hlo
    have hred : FindOrCreateEntry bm s ndp entry relativeTo =
        (match findDup bm.entries lo.Data attrsNvBsRt with
         | some existingNum => .ret existingNum none bm s []
         | none =>
           .ret (freeIdx : Int) none
             ⟨entInsert bm.entries freeIdx ⟨freeIdx, lo.Data, attrsNvBsRt, lo⟩,
              bm.bootOrder, bm.bootOrderAttrs⟩
             (SetVariable s (bootVarName freeIdx) lo.Data attrsNvBsRt)
             [(bootVarName freeIdx, lo.Data, attrsNvBsRt)]) := by
      unfold FindOrCreateEntry
      rw [hfree]
      dsimp only
      rw [hdp]
      dsimp only
      rw [hlo]
    constructor
    · intro hdup
      cases hfd : findDup bm.entries lo.Data attrsNvBsRt with
      | none =>
        obtain ⟨key, e, hm, h1, h2⟩ := hdup
        exact absurd ⟨h1, h2⟩ (findDup_none _ _ _ hfd key e hm)
      | some k =>
        obtain ⟨key, e, hm, h1, h2, h3⟩ := findDup_some _ _ _ k hfd
        refine ⟨key, e, hm, h1, h2, ?_⟩
        rw [hred, hfd, h3]
    · intro hnodup
      cases hfd : findDup bm.entries lo.Data attrsNvBsRt with
      | some k =>
        obtain ⟨key, e, hm, h1, h2, h3⟩ := findDup_some _ _ _ k hfd
        exact absurd ⟨key, e, hm, h1, h2⟩ hnodup
      | none =>
        obtain ⟨h1, h2⟩ := NextFreeEntry_spec bm freeIdx hfree
        refine ⟨h1, h2, ?_⟩
        rw [hred, hfd]
  · intro n m bm2 s2 ws h
    unfold FindOrCreateEntry at h
    cases h1 : NextFreeEntry bm with
    | error msg =>
      rw [h1] at h
      dsimp only at h
      simp only [FoCResult.ret.injEq] at h
      obtain ⟨hn, _, hbm, hs, hws⟩ := h
      exact ⟨hn.symm, hbm.symm, hs.symm, hws.symm⟩
    | panicked msg =>
      rw [h1] at h
      dsimp only at h
      exact FoCResult.noConfusion h
    | ok freeIdx =>
      rw [h1] at h
      dsimp only at h
      cases h2 : ndp (pathJoin relativeTo entry.Filename) with
      | error msg =>
        rw [h2] at h
        dsimp only at h
        simp only [FoCResult.ret.injEq] at h
        obtain ⟨hn, _, hbm, hs, hws⟩ := h
        exact ⟨hn.symm, hbm.symm, hs.symm, hws.symm⟩
      | panicked msg =>
        rw [h2] at h
        dsimp only at h
        exact FoCResult.noConfusion h
      | ok dp =>
        rw [h2] at h
        dsimp only at h
        cases h3 : NewLoadOption LoadOptionActive dp entry.Label
            (NewLoadOptionArgumentFromUTF8 entry.Options) with
        | error msg =>
          rw [h3] at h
          dsimp only at h
          simp only [FoCResult.ret.injEq] at h
          obtain ⟨hn, _, hbm, hs, hws⟩ := h
          exact ⟨hn.symm, hbm.symm, hs.symm, hws.symm⟩
        | panicked msg =>
          rw [h3] at h
          dsimp only at h
          exact FoCResult.noConfusion h
        | ok lo =>
          rw [h3] at h
          dsimp only at h
          cases h4 : findDup bm.entries lo.Data attrsNvBsRt with
          | some k =>
            rw [h4] at h
            dsimp only at h
            simp only [FoCResult.ret.injEq] at h
            exact absurd h.2.1 (by simp)
          | none =>
            rw [h4] at h
            dsimp only at h
            simp only [FoCResult.ret.injEq] at h
            exact absurd h.2.1 (by simp)

/-- Empty boot manager used by the C6 witness. -/
def c6Bm : BootManager := ⟨[], [], 7⟩

/-- Injected device-path service used by the C6 witness. -/
def c6Ndp : String → GoResult Bytes := fun _ => .ok [1, 1, 0, 0]

/-- Boot entry used by the C6 witness. -/
def c6Entry : BootEntry := ⟨"f", "A", "o", "d"⟩

/-- Encoded load option produced for the C6 witness entry. -/
def c6Lo : LoadOption := ⟨[1, 0, 0, 0, 4, 0, 65, 0, 0, 0, 1, 1, 0, 0, 111, 0]⟩

/-- Witness for C6: on an empty manager the entry is created at the lowest
free index 0 with attributes NV | BS | RT. -/
theorem C6_find_or_create_entry_witness :
    entLookup c6Bm.entries 0 = none ∧
    FindOrCreateEntry c6Bm [] c6Ndp c6Entry "" =
      .ret (0 : Int) none
        ⟨entInsert c6Bm.entries 0 ⟨0, c6Lo.Data, attrsNvBsRt, c6Lo⟩, c6Bm.bootOrder,
         c6Bm.bootOrderAttrs⟩
        (SetVariable [] (bootVarName 0) c6Lo.Data attrsNvBsRt)
        [(bootVarName 0, c6Lo.Data, attrsNvBsRt)] := by
  have h := ((C6_find_or_create_entry c6Bm [] c6Ndp c6Entry "").1
    0 [1, 1, 0, 0] c6Lo (by decide) (by decide) (by decide)).2
    (by rintro ⟨key, e, hm, -, -⟩; cases hm)
  exact ⟨h.1, h.2.2⟩

theorem entLookup_entInsert_self (m : EntryMap) (n : Nat) (e : BootEntryVariable) :
    entLookup (entInsert m n e) n = some e := by
  induction m with
  | nil => simp [entInsert, entLookup]
  | cons hd tl ih =>
    obtain ⟨k, e0⟩ := hd
    by_cases hk : k = n
    · simp [entInsert, hk, entLookup]
    · simp [entInsert, entLookup, hk, ih]

theorem entLookup_entInsert_ne (m : EntryMap) (n n2 : Nat) (e : BootEntryVariable)
    (h : n ≠ n2) : entLookup (entInsert m n e) n2 = entLookup m n2 := by
  induction m with
  | nil => simp [entInsert, entLookup, h]
  | cons hd tl ih =>
    obtain ⟨k, e0⟩ := hd
    by_cases hk : k = n
    · subst hk
      simp [entInsert, entLookup, h, ih]
    · simp only [entInsert, if_neg hk]
      by_cases hk2 : k = n2
      · simp [entLookup, hk2]
      · simp [entLookup, hk2, ih]

theorem storeGet_isSome_mem_names (s : VarStore) (name : String)
    (h : (storeGet s name).isSome) : name ∈ storeNames s := by
  induction s with
  | nil => simp [storeGet] at h
  | cons hd tl ih =>
    obtain ⟨n, d, a⟩ := hd
    by_cases hn : n = name
    · subst hn
      simp [storeNames]
    · simp only [storeGet, if_neg hn] at h
      simp [storeNames]
      right
      have := ih h
      simpa [storeNames] using this

theorem loadEntries_no_scan (s : VarStore) (n : Nat) :
    ∀ names : List String, ∀ acc em : EntryMap,
      (∀ nm ∈ names, scanBootNumber nm ≠ some n) →
      loadEntries s names acc = .ok em →
      entLookup em n = entLookup acc n := by
  intro names
  induction names with
  | nil =>
    intro acc em _ h
    cases h
    rfl
  | cons nm rest ih =>
    intro acc em hns h
    simp only [loadEntries] at h
    cases hscan : scanBootNumber nm with
    | none =>
      rw [hscan] at h
      exact ih acc em (fun x hx => hns x (List.mem_cons_of_mem _ hx)) h
    | some n2 =>
      have hn2 : n2 ≠ n := by
        intro hc
        subst hc
        exact hns nm (List.mem_cons_self _ _) hscan
      rw [hscan] at h
      cases hget : storeGet s nm with
      | none =>
        rw [hget] at h
        exact GoResult.noConfusion h
      | some da =>
        obtain ⟨d, a⟩ := da
        rw [hget] at h
        dsimp only at h
        cases hlo : NewLoadOptionFromVariable (some d) with
        | panicked m =>
          rw [hlo] at h
          exact GoResult.noConfusion h
        | ok lo =>
          rw [hlo] at h
          rw [ih _ em (fun x hx => hns x (List.mem_cons_of_mem _ hx)) h]
          exact entLookup_entInsert_ne acc n2 n _ hn2
        | error m =>
          rw [hlo] at h
          rw [ih _ em (fun x hx => hns x (List.mem_cons_of_mem _ hx)) h]
          exact entLookup_entInsert_ne acc n2 n _ hn2

theorem loadEntries_invalid_recorded (s : VarStore) (n : Nat) (name : String)
    (data : Bytes) (attrs : Nat) (msg : String)
    (hget : storeGet s name = some (data, attrs))
    (hscan : scanBootNumber name = some n)
    (hinvalid : NewLoadOptionFromVariable (some data) = .error msg) :
    ∀ names : List String, ∀ acc em : EntryMap,
      name ∈ names →
      (∀ nm2 ∈ names, scanBootNumber nm2 = some n → nm2 = name) →
      loadEntries s names acc = .ok em →
      entLookup em n = some ⟨n, data, attrs, ⟨[]⟩⟩ := by
  intro names
  induction names with
  | nil =>
    intro acc em hmem
    cases hmem
  | cons nm rest ih =>
    intro acc em hmem huniq h
    by_cases hrest : ∃ nm2 ∈ rest, scanBootNumber nm2 = some n
    · -- the witness in the tail settles the final value
      obtain ⟨nm2, hnm2, hs2⟩ := hrest
      have hnm2name : nm2 = name := huniq nm2 (List.mem_cons_of_mem _ hnm2) hs2
      subst hnm2name
      simp only [loadEntries] at h
      cases hscannm : scanBootNumber nm with
      | none =>
        rw [hscannm] at h
        exact ih acc em hnm2 (fun x hx hsx => huniq x (List.mem_cons_of_mem _ hx) hsx) h
      | some n3 =>
        rw [hscannm] at h
        cases hgetnm : storeGet s nm with
        | none =>
          rw [hgetnm] at h
          exact GoResult.noConfusion h
        | some da =>
          obtain ⟨d3, a3⟩ := da
          rw [hgetnm] at h
          dsimp only at h
          cases hlonm : NewLoadOptionFromVariable (some d3) with
          | panicked m3 =>
            rw [hlonm] at h
            exact GoResult.noConfusion h
          | ok lo3 =>
            rw [hlonm] at h
            exact ih _ em hnm2 (fun x hx hsx => huniq x (List.mem_cons_of_mem _ hx) hsx) h
          | error m3 =>
            rw [hlonm] at h
            exact ih _ em hnm2 (fun x hx hsx => huniq x (List.mem_cons_of_mem _ hx) hsx) h
    · -- the head must be the recorded name; nothing later touches n
      push_neg at hrest
      have hnmname : nm = name := by
        rcases List.mem_cons.mp hmem with h1 | h2
        · exact h1.symm
        · exact absurd hscan (hrest name h2)
      subst hnmname
      simp only [loadEntries] at h
      rw [hscan, hget] at h
      dsimp only at h
      rw [hinvalid] at h
      rw [loadEntries_no_scan s n rest _ em hrest h]
      exact entLookup_entInsert_self acc n ⟨n, data, attrs, ⟨[]⟩⟩

/-- Concrete variable store with one malformed `Boot0001` payload. -/
def c5Store : VarStore := [("BootOrder", [1, 0], 123), ("Boot0001", [0, 1], 42)]

/-- The boot manager produced from `c5Store`. -/
def c5Bm : BootManager := ⟨[(1, ⟨1, [0, 1], 42, ⟨[]⟩⟩)], [1], 123⟩

/-- C5 counterexample: the claim says a `Boot####` variable whose payload
fails load-option validation is skipped, i.e. absent from the entry map.
On `c5Store` the payload `[0, 1]` is rejected by the decoder (it is the
repository's own invalid test vector), yet entry 1 is present in the
resulting manager. -/
theorem C5_counterexample :
    NewBootManagerFromSystem c5Store = .ok c5Bm ∧
    NewLoadOptionFromVariable (some [0, 1]) = .error "Invalid load option" ∧
    entLookup c5Bm.entries 1 ≠ none := by
  refine ⟨by decide, by decide, by decide⟩

/-- C5 amended: a `Boot####` variable whose payload fails load-option
validation is logged but still recorded: the entry stays in the in-memory
map under its boot number, carrying the raw payload and the zero-value
load option.  (The uniqueness hypothesis pins the single store name that
scans to the given number.) -/
theorem C5_invalid_entry_recorded (s : VarStore) (bm : BootManager) (name : String)
    (data : Bytes) (attrs n : Nat) (msg : String)
    (hbm : NewBootManagerFromSystem s = .ok bm)
    (hget : storeGet s name = some (data, attrs))
    (hscan : scanBootNumber name = some n)
    (hinvalid : NewLoadOptionFromVariable (some data) = .error msg)
    (huniq : ∀ nm2 ∈ storeNames s, scanBootNumber nm2 = some n → nm2 = name) :
    entLookup bm.entries n = some ⟨n, data, attrs, ⟨[]⟩⟩ := by
  have hname : name ∈ storeNames s :=
    storeGet_isSome_mem_names s name (by rw [hget]; rfl)
  unfold NewBootManagerFromSystem at hbm
  cases hbo : storeGet s "BootOrder" with
  | none =>
    rw [hbo] at hbm
    exact GoResult.noConfusion hbm
  | some da =>
    obtain ⟨bo, boAttrs⟩ := da
    rw [hbo] at hbm
    dsimp only at hbm
    cases hle : loadEntries s (storeNames s) [] with
    | error m =>
      rw [hle] at hbm
      exact GoResult.noConfusion hbm
    | panicked m =>
      rw [hle] at hbm
      exact GoResult.noConfusion hbm
    | ok entries =>
      rw [hle] at hbm
      injection hbm with hbm2
      rw [← hbm2]
      exact loadEntries_invalid_recorded s n name data attrs msg hget hscan hinvalid
        (storeNames s) [] entries hname huniq hle

/-- Witness for the amended C5 on the concrete store `c5Store`. -/
theorem C5_invalid_entry_recorded_witness :
    entLookup c5Bm.entries 1 = some ⟨1, [0, 1], 42, ⟨[]⟩⟩ :=
  C5_invalid_entry_recorded c5Store c5Bm "Boot0001" [0, 1] 42 1 "Invalid load option"
    (by decide) (by decide) (by decide) (by decide) (by decide)

/-! ## Shim fallback CSV (src/efibootmgr/shim.go) -/

/-- The record `fmt.Fprintf(w, "%s,%s,%s,%s\n", ...)` writes for an entry. -/
def shimRecord (e : BootEntry) : String :=
  e.Filename ++ "," ++ e.Label ++ "," ++ e.Options ++ "," ++ e.Description ++ "\n"

/-- Whether any attribute of the entry contains a comma
(`strings.Contains(..., ",")`). -/
def entryHasComma (e : BootEntry) : Bool :=
  e.Filename.data.contains ',' || e.Label.data.contains ',' ||
  e.Options.data.contains ',' || e.Description.data.contains ','

/-- The loop of `WriteShimFallback`; the writer is modeled as the list of
records written so far (each `Fprintf` appends one record and never fails
on the in-memory writer). -/
def WriteShimFallbackAux : List BootEntry → List String → List String × Option String
  | [], out => (out, none)
  | e :: rest, out =>
    if entryHasComma e then
      (out, some ("entry '" ++ e.Label ++
        "' contains ',' in one of the attributes, this is not supported"))
    else WriteShimFallbackAux rest (out ++ [shimRecord e])

/-- `WriteShimFallback`: records written and error returned. -/
def WriteShimFallback (entries : List BootEntry) : List String × Option String :=
  WriteShimFallbackAux entries []

theorem writeShimFallbackAux_spec (es : List BootEntry) :
    ∀ out, ((WriteShimFallbackAux es out).2 ≠ none ↔ ∃ e ∈ es, entryHasComma e = true) ∧
      ((∀ e ∈ es, entryHasComma e = false) →
        WriteShimFallbackAux es out = (out ++ es.map shimRecord, none)) := by
  induction es with
  | nil =>
    intro out
    constructor
    · simp [WriteShimFallbackAux]
    · intro _
      simp [WriteShimFallbackAux]
  | cons e rest ih =>
    intro out
    by_cases hc : entryHasComma e
    · constructor
      · simp only [WriteShimFallbackAux, if_pos hc]
        constructor
        · intro _
          exact ⟨e, List.mem_cons_self _ _, hc⟩
        · intro _
          simp
      · intro hall
        exact absurd (hall e (List.mem_cons_self _ _)) (by simp [hc])
    · constructor
      · simp only [WriteShimFallbackAux, if_neg hc]
        rw [(ih (out ++ [shimRecord e])).1]
        constructor
        · rintro ⟨e2, hm, hc2⟩
          exact ⟨e2, List.mem_cons_of_mem _ hm, hc2⟩
        · rintro ⟨e2, hm, hc2⟩
          rcases List.mem_cons.mp hm with heq | hm2
          · subst heq
            exact absurd hc2 (by simpa using hc)
          · exact ⟨e2, hm2, hc2⟩
      · intro hall
        simp only [WriteShimFallbackAux, if_neg hc]
        rw [(ih (out ++ [shimRecord e])).2 (fun x hx => hall x (List.mem_cons_of_mem _ hx))]
        simp [List.append_assoc]

/-- C9: `WriteShimFallback` fails exactly when some entry attribute
contains a comma, and on comma-free input writes one record per entry in
list order, each of the exact form `filename,label,options,description`
terminated by a line feed. -/
theorem C9_write_shim_fallback (entries : List BootEntry) :
    ((WriteShimFallback entries).2 ≠ none ↔ ∃ e ∈ entries, entryHasComma e = true) ∧
    ((∀ e ∈ entries, entryHasComma e = false) →
      WriteShimFallback entries = (entries.map shimRecord, none)) := by
  have h := writeShimFallbackAux_spec entries []
  exact ⟨(h.1), fun hall => by simpa using (h.2 hall)⟩

/-- Witness for C9 on a concrete comma-free entry and a concrete
comma-carrying entry. -/
theorem C9_write_shim_fallback_witness :
    WriteShimFallback [⟨"shimx64.efi", "Ubuntu", "opt", "desc"⟩] =
      (["shimx64.efi,Ubuntu,opt,desc\n"], none) ∧
    (WriteShimFallback [⟨"a,b", "L", "o", "d"⟩]).2 ≠ none := by
  constructor
  · have h := (C9_write_shim_fallback [⟨"shimx64.efi", "Ubuntu", "opt", "desc"⟩]).2
      (by decide)
    rw [h]
    decide
  · exact ((C9_write_shim_fallback [⟨"a,b", "L", "o", "d"⟩]).1).mpr
      ⟨⟨"a,b", "L", "o", "d"⟩, List.mem_cons_self _ _, by decide⟩

/-! ## Verified streaming image (src/efibootmgr/reseal.go)

`efiImageFile` wraps a file; reads hash each touched block, recording the
leaf hash on first contact and comparing on re-reads.  The underlying file
content is passed to each operation (the Go handle reads whatever the file
holds at that moment), the hash function is the injected digest
(`assets.alg()`, SHA-256 in production). -/

/-- `hashBlockSize` (defined with the trusted-assets store; value per the
spec). -/
def hashBlockSize : Nat := 4096

/-- Errors a read can produce: `io.EOF`, `io.ErrUnexpectedEOF`, or the
"hash check fail for block i" error. -/
inductive ReadErr where
  | eof
  | unexpectedEOF
  | hashMismatch (i : Nat)
deriving DecidableEq, Repr

/-- Element access on the leaf-hash slice (`f.leafHashes[i]`); `none`
stands for a nil/empty entry, i.e. a hash not yet recorded. -/
def lhGet : List (Option Bytes) → Nat → Option Bytes
  | [], _ => none
  | x :: _, 0 => x
  | _ :: rest, i + 1 => lhGet rest i

/-- Element assignment on the leaf-hash slice (`f.leafHashes[i] = v`). -/
def lhSet : List (Option Bytes) → Nat → Option Bytes → List (Option Bytes)
  | [], _, _ => []
  | _ :: rest, 0, v => v :: rest
  | x :: rest, i + 1, v => x :: lhSet rest i v

/-- State of an `efiImageFile`: recorded leaf hashes, the block cache
(`cachedBlockIndex = -1`, i.e. empty, is modeled as `none`), and the size
observed at open time. -/
structure EfiImageFile where
  leafHashes : List (Option Bytes)
  cachedBlockIndex : Option Nat
  cachedBlock : Bytes
  sz : Nat
deriving DecidableEq, Repr

/-- `newEfiImageFile`: one leaf-hash slot per (possibly partial) block. -/
def newEfiImageFile (content : Bytes) : EfiImageFile :=
  ⟨List.replicate ((content.length + (hashBlockSize - 1)) / hashBlockSize) none,
   none, [], content.length⟩

/-- Number of blocks of a file. -/
def numBlocks (content : Bytes) : Nat :=
  (content.length + (hashBlockSize - 1)) / hashBlockSize

/-- The raw bytes of block `i` (up to `hashBlockSize` of them). -/
def blockData (content : Bytes) (i : Nat) : Bytes :=
  (content.drop (i * hashBlockSize)).take hashBlockSize

/-- Block `i` zero-padded to the full block size, as hashed by the code
(`h.Write(block[:])` hashes the whole fixed-size array). -/
def paddedBlock (content : Bytes) (i : Nat) : Bytes :=
  blockData content i ++ List.replicate (hashBlockSize - (blockData content i).length) 0

/-- `readAndCacheBlock`: serve from cache if possible; otherwise read the
whole block, cache it, and record or verify its leaf hash.  Faithful to
the source order: the block is cached before the hash comparison, so a
mismatching block is left in the cache. -/
def readAndCacheBlock (H : Bytes → Bytes) (content : Bytes) (f : EfiImageFile)
    (i : Nat) : Option ReadErr × EfiImageFile :=
  if f.cachedBlockIndex = some i then (none, f)
  else if f.leafHashes.length ≤ i then (some .eof, f)
  else
    let n := min hashBlockSize (content.length - i * hashBlockSize)
    if n = 0 then (some .eof, f)
    else
      let rdErr : Option ReadErr :=
        if n < hashBlockSize then some .unexpectedEOF else none
      let blk := (content.drop (i * hashBlockSize)).take hashBlockSize
      let padded := blk ++ List.replicate (hashBlockSize - n) 0
      let f2 := { f with cachedBlockIndex := some i, cachedBlock := blk }
      match lhGet f.leafHashes i with
      | none => (rdErr, { f2 with leafHashes := lhSet f2.leafHashes i (some (H padded)) })
      | some recorded =>
        if H padded = recorded then (rdErr, f2) else (some (.hashMismatch i), f2)

/-- The block loop of `ReadAt`.  Faithful to the source: the error of
`readAndCacheBlock` is consulted only to break before copying; the final
`if err != nil` of the Go loop tests the function's named return value,
which is never assigned, so the loop otherwise always continues. -/
def readAtLoop (H : Bytes → Bytes) (content : Bytes) :
    Nat → EfiImageFile → Nat → Nat → Nat → Nat → Bytes → Nat × Bytes × EfiImageFile
  | 0, f, _, _, _, n, out => (n, out, f)
  | num + 1, f, i, off0, pLen, n, out =>
    match readAndCacheBlock H content f i with
    | (err, f2) =>
      if err ≠ none ∧ err ≠ some .unexpectedEOF then (n, out, f2)
      else
        let data1 := f2.cachedBlock
        let data2 := if n = 0 then data1.drop off0 else data1
        let sz := pLen - n
        let data3 := if sz < data2.length then data2.take sz else data2
        readAtLoop H content num f2 (i + 1) off0 pLen (n + data3.length) (out ++ data3)

/-- `ReadAt` over a buffer of length `pLen` at a non-negative offset: the
returned count and error, the bytes copied into the buffer, and the
updated state. -/
def ReadAt (H : Bytes → Bytes) (content : Bytes) (f : EfiImageFile)
    (pLen : Nat) (off : Nat) : (Nat × Option ReadErr) × Bytes × EfiImageFile :=
  let start := (off + hashBlockSize) / hashBlockSize - 1
  let endIdx := (off + pLen + hashBlockSize) / hashBlockSize
  let num := endIdx - start
  match readAtLoop H content num f start (off - start * hashBlockSize) pLen 0 [] with
  | (n, out, f2) => if n = 0 then ((0, some .eof), out, f2) else ((n, none), out, f2)

/-- Consistency of an `efiImageFile` state with stable file contents:
every recorded leaf hash is the hash of the corresponding padded block,
and the cache, when loaded, holds an actual block of the file. -/
structure GoodState (H : Bytes → Bytes) (content : Bytes) (f : EfiImageFile) : Prop where
  len_eq : f.leafHashes.length = numBlocks content
  hashes : ∀ i h, lhGet f.leafHashes i = some h → h = H (paddedBlock content i)
  cache : f.cachedBlockIndex = none ∨
    ∃ i, f.cachedBlockIndex = some i ∧ i < numBlocks content ∧
      f.cachedBlock = blockData content i

theorem lhGet_replicate_none :
    ∀ m i : Nat, lhGet (List.replicate m (none : Option Bytes)) i = none := by
  intro m
  induction m with
  | zero =>
    intro i
    cases i <;> rfl
  | succ k ih =>
    intro i
    cases i with
    | zero => rfl
    | succ j => simpa [List.replicate_succ, lhGet] using ih j

theorem goodState_new (H : Bytes → Bytes) (content : Bytes) :
    GoodState H content (newEfiImageFile content) := by
  refine ⟨by simp [newEfiImageFile, numBlocks], ?_, Or.inl rfl⟩
  intro i h hget
  rw [show (newEfiImageFile content).leafHashes =
    List.replicate ((content.length + (hashBlockSize - 1)) / hashBlockSize) none from rfl,
    lhGet_replicate_none] at hget
  exact Option.noConfusion hget

theorem length_lhSet : ∀ (l : List (Option Bytes)) (i : Nat) (v : Option Bytes),
    (lhSet l i v).length = l.length := by
  intro l
  induction l with
  | nil => intro i v; rfl
  | cons x rest ih =>
    intro i v
    cases i with
    | zero => rfl
    | succ j => simp [lhSet, ih]

theorem lhGet_lhSet_self : ∀ (l : List (Option Bytes)) (i : Nat) (v : Option Bytes),
    i < l.length → lhGet (lhSet l i v) i = v := by
  intro l
  induction l with
  | nil =>
    intro i v h
    simp at h
  | cons x rest ih =>
    intro i v h
    cases i with
    | zero => rfl
    | succ j =>
      simp only [lhSet, lhGet]
      exact ih j v (by simpa using h)

theorem lhGet_lhSet_ne : ∀ (l : List (Option Bytes)) (i j : Nat) (v : Option Bytes),
    i ≠ j → lhGet (lhSet l i v) j = lhGet l j := by
  intro l
  induction l with
  | nil => intro i j v _; cases i <;> rfl
  | cons x rest ih =>
    intro i j v hij
    cases i with
    | zero =>
      cases j with
      | zero => exact absurd rfl hij
      | succ j2 => rfl
    | succ i2 =>
      cases j with
      | zero => rfl
      | succ j2 =>
        simp only [lhSet, lhGet]
        exact ih i2 j2 v (fun hc => hij (by rw [hc]))

theorem length_blockData (content : Bytes) (i : Nat) :
    (blockData content i).length =
      min hashBlockSize (content.length - i * hashBlockSize) := by
  simp [blockData]

theorem lt_numBlocks_mul_lt (content : Bytes) (i : Nat) (h : i < numBlocks content) :
    i * hashBlockSize < content.length := by
  unfold numBlocks hashBlockSize at *
  omega

theorem mul_lt_lt_numBlocks (content : Bytes) (i : Nat)
    (h : i * hashBlockSize < content.length) : i < numBlocks content := by
  unfold numBlocks hashBlockSize at *
  omega

theorem numBlocks_mul_ge (content : Bytes) (i : Nat) (h : numBlocks content ≤ i) :
    content.length ≤ i * hashBlockSize := by
  unfold numBlocks hashBlockSize at *
  omega

theorem paddedBlock_eq (content : Bytes) (i : Nat) :
    paddedBlock content i =
      blockData content i ++
        List.replicate
          (hashBlockSize - min hashBlockSize (content.length - i * hashBlockSize)) 0 := by
  rw [paddedBlock, length_blockData]

theorem readAndCacheBlock_good (H : Bytes → Bytes) (content : Bytes) (f : EfiImageFile)
    (i : Nat) (hg : GoodState H content f) (hi : i < numBlocks content) :
    ∃ err f2, readAndCacheBlock H content f i = (err, f2) ∧
      (err = none ∨ err = some .unexpectedEOF) ∧
      GoodState H content f2 ∧
      f2.cachedBlock = blockData content i := by
  by_cases hc : f.cachedBlockIndex = some i
  · refine ⟨none, f, by unfold readAndCacheBlock; rw [if_pos hc], Or.inl rfl, hg, ?_⟩
    rcases hg.cache with hnone | ⟨j, hj, _, hb⟩
    · rw [hnone] at hc
      exact Option.noConfusion hc
    · rw [hj] at hc
      rw [hb, Option.some.inj hc]
  · have hlen : ¬(f.leafHashes.length ≤ i) := by
      rw [hg.len_eq]
      omega
    have hn0 : ¬(min hashBlockSize (content.length - i * hashBlockSize) = 0) := by
      have := lt_numBlocks_mul_lt content i hi
      unfold hashBlockSize at *
      omega
    have hpad : (content.drop (i * hashBlockSize)).take hashBlockSize ++
        List.replicate
          (hashBlockSize - min hashBlockSize (content.length - i * hashBlockSize)) 0 =
        paddedBlock content i := by
      rw [paddedBlock_eq]
      rfl
    simp only [readAndCacheBlock, if_neg hc, if_neg hlen, if_neg hn0]
    cases hrec : lhGet f.leafHashes i with
    | none =>
      refine ⟨_, _, rfl, ?_, ?_, rfl⟩
      · by_cases hs : min hashBlockSize (content.length - i * hashBlockSize) < hashBlockSize
        · rw [if_pos hs]
          exact Or.inr rfl
        · rw [if_neg hs]
          exact Or.inl rfl
      · refine ⟨?_, ?_, ?_⟩
        · rw [length_lhSet]
          exact hg.len_eq
        · intro j h hj
          by_cases hji : i = j
          · subst hji
            rw [lhGet_lhSet_self _ _ _ (by rw [hg.len_eq]; omega)] at hj
            injection hj with hj2
            rw [← hj2, hpad]
          · rw [lhGet_lhSet_ne _ _ _ _ hji] at hj
            exact hg.hashes j h hj
        · exact Or.inr ⟨i, rfl, hi, rfl⟩
    | some recorded =>
      have hrecval : recorded = H (paddedBlock content i) := hg.hashes i recorded hrec
      have heq : H ((content.drop (i * hashBlockSize)).take hashBlockSize ++
          List.replicate
            (hashBlockSize - min hashBlockSize (content.length - i * hashBlockSize)) 0) =
          recorded := by
        rw [hpad, hrecval]
      dsimp only
      rw [if_pos heq]
      refine ⟨_, _, rfl, ?_, ?_, rfl⟩
      · by_cases hs : min hashBlockSize (content.length - i * hashBlockSize) < hashBlockSize
        · rw [if_pos hs]
          exact Or.inr rfl
        · rw [if_neg hs]
          exact Or.inl rfl
      · exact ⟨hg.len_eq, hg.hashes, Or.inr ⟨i, rfl, hi, rfl⟩⟩

theorem readAtLoop_spec (H : Bytes → Bytes) (content : Bytes) (pLen off : Nat)
    (hoff : off < content.length) :
    ∀ num f i n out off0,
      GoodState H content f →
      n = min pLen (min (i * hashBlockSize) content.length - off) →
      out = (content.drop off).take n →
      (n = 0 → pLen = 0 ∨
        (i * hashBlockSize ≤ off ∧ off < (i + 1) * hashBlockSize ∧
         off0 = off - i * hashBlockSize)) →
      (readAtLoop H content num f i off0 pLen n out).1 =
          min pLen (min ((i + num) * hashBlockSize) content.length - off) ∧
      (readAtLoop H content num f i off0 pLen n out).2.1 =
          (content.drop off).take
            (min pLen (min ((i + num) * hashBlockSize) content.length - off)) ∧
      GoodState H content (readAtLoop H content num f i off0 pLen n out).2.2 := by
  intro num
  induction num with
  | zero =>
    intro f i n out off0 hg hn hout _
    simp only [readAtLoop, Nat.add_zero]
    exact ⟨hn, by rw [hout, hn], hg⟩
  | succ num ih =>
    intro f i n out off0 hg hn hout hzero
    rw [show i + (num + 1) = (i + 1) + num from by omega]
    by_cases hiB : i < numBlocks content
    · obtain ⟨err, f2, hrac, herr, hg2, hcb⟩ := readAndCacheBlock_good H content f i hg hiB
      have hiBL : i * hashBlockSize < content.length := lt_numBlocks_mul_lt content i hiB
      have hnI : f2.cachedBlock.length =
          min hashBlockSize (content.length - i * hashBlockSize) := by
        rw [hcb, length_blockData]
      have hbreak : ¬(err ≠ none ∧ err ≠ some ReadErr.unexpectedEOF) := by
        rcases herr with h | h <;> simp [h]
      simp only [readAtLoop, hrac]
      rw [if_neg hbreak]
      by_cases hn0 : n = 0
      · subst hn0
        have hinner : (if (0 : Nat) = 0 then f2.cachedBlock.drop off0
            else f2.cachedBlock) = f2.cachedBlock.drop off0 := if_pos rfl
        rw [hinner]
        simp only [Nat.sub_zero, Nat.zero_add]
        by_cases hp : pLen = 0
        · subst hp
          have hd3 : (if (0 : Nat) < (f2.cachedBlock.drop off0).length then
              (f2.cachedBlock.drop off0).take 0 else f2.cachedBlock.drop off0) =
              ([] : Bytes) := by
            by_cases hl : (0 : Nat) < (f2.cachedBlock.drop off0).length
            · rw [if_pos hl]
              exact List.take_zero _
            · rw [if_neg hl]
              have : (f2.cachedBlock.drop off0).length = 0 := by omega
              exact List.length_eq_zero.mp this
          rw [hd3]
          simp only [List.append_nil, List.length_nil, Nat.add_zero]
          exact ih f2 (i + 1) 0 out off0 hg2 (by omega) (by rw [hout]) (fun _ => Or.inl rfl)
        · rcases hzero rfl with hp0 | ⟨hlow, hhigh, hoff0⟩
          · exact absurd hp0 hp
          subst hoff0
          have hout2 : out = [] := by
            rw [hout]
            simp
          have hdata2 : f2.cachedBlock.drop (off - i * hashBlockSize) =
              (content.drop off).take
                (hashBlockSize - (off - i * hashBlockSize)) := by
            rw [hcb]
            unfold blockData
            rw [List.drop_take, List.drop_drop]
            rw [show i * hashBlockSize + (off - i * hashBlockSize) = off from by omega]
          have hlen2 : (f2.cachedBlock.drop (off - i * hashBlockSize)).length =
              f2.cachedBlock.length - (off - i * hashBlockSize) := by
            simp
          have hd3 : (if pLen < (f2.cachedBlock.drop (off - i * hashBlockSize)).length
              then (f2.cachedBlock.drop (off - i * hashBlockSize)).take pLen
              else f2.cachedBlock.drop (off - i * hashBlockSize)) =
              (content.drop off).take
                (min pLen (min hashBlockSize (content.length - i * hashBlockSize) -
                  (off - i * hashBlockSize))) := by
            by_cases hc3 : pLen < (f2.cachedBlock.drop (off - i * hashBlockSize)).length
            · rw [if_pos hc3, hdata2, List.take_take]
              rw [hlen2, hnI] at hc3
              congr 1
              simp only [hashBlockSize] at *
              omega
            · rw [if_neg hc3, hdata2]
              rw [hlen2, hnI] at hc3
              rcases Nat.lt_or_ge (content.length - i * hashBlockSize) hashBlockSize
                with hshort | hfull
              · have h1 : (content.drop off).length ≤
                    hashBlockSize - (off - i * hashBlockSize) := by
                  simp only [List.length_drop]
                  simp only [hashBlockSize] at *
                  omega
                have h2 : (content.drop off).length ≤
                    min pLen (min hashBlockSize (content.length - i * hashBlockSize) -
                      (off - i * hashBlockSize)) := by
                  simp only [List.length_drop]
                  simp only [hashBlockSize] at *
                  omega
                rw [List.take_of_length_le h1, List.take_of_length_le h2]
              · congr 1
                simp only [hashBlockSize] at *
                omega
          rw [hd3]
          have hlen3 : ((content.drop off).take
              (min pLen (min hashBlockSize (content.length - i * hashBlockSize) -
                (off - i * hashBlockSize)))).length =
              min pLen (min hashBlockSize (content.length - i * hashBlockSize) -
                (off - i * hashBlockSize)) := by
            simp only [List.length_take, List.length_drop]
            simp only [hashBlockSize] at *
            omega
          rw [hlen3, hout2]
          simp only [List.nil_append, Nat.zero_add]
          refine ih f2 (i + 1) _ _ (off - i * hashBlockSize) hg2 ?_ rfl ?_
          · simp only [hashBlockSize] at *
            omega
          · intro hm
            exfalso
            simp only [hashBlockSize] at *
            omega
      · have hinner : (if n = 0 then f2.cachedBlock.drop off0
            else f2.cachedBlock) = f2.cachedBlock := if_neg hn0
        rw [hinner]
        have hofflt : off < i * hashBlockSize := by
          by_contra hcon
          apply hn0
          rw [hn]
          simp only [hashBlockSize] at *
          omega
        have hnn : n = min pLen (i * hashBlockSize - off) := by
          rw [hn]
          simp only [hashBlockSize] at *
          omega
        have hd3 : (if pLen - n < f2.cachedBlock.length
            then f2.cachedBlock.take (pLen - n) else f2.cachedBlock) =
            (content.drop (i * hashBlockSize)).take
              (min (pLen - n) (min hashBlockSize
                (content.length - i * hashBlockSize))) := by
          by_cases hc3 : pLen - n < f2.cachedBlock.length
          · rw [if_pos hc3, hcb]
            unfold blockData
            rw [List.take_take]
            rw [hnI] at hc3
            congr 1
            simp only [hashBlockSize] at *
            omega
          · rw [if_neg hc3, hcb]
            unfold blockData
            rw [hnI] at hc3
            rcases Nat.lt_or_ge (content.length - i * hashBlockSize) hashBlockSize
              with hshort | hfull
            · have h1 : (content.drop (i * hashBlockSize)).length ≤ hashBlockSize := by
                simp only [List.length_drop]
                omega
              have h2 : (content.drop (i * hashBlockSize)).length ≤
                  min (pLen - n) (min hashBlockSize
                    (content.length - i * hashBlockSize)) := by
                simp only [List.length_drop]
                simp only [hashBlockSize] at *
                omega
              rw [List.take_of_length_le h1, List.take_of_length_le h2]
            · congr 1
              simp only [hashBlockSize] at *
              omega
        rw [hd3]
        have hlen3 : ((content.drop (i * hashBlockSize)).take
            (min (pLen - n) (min hashBlockSize
              (content.length - i * hashBlockSize)))).length =
            min (pLen - n) (min hashBlockSize
              (content.length - i * hashBlockSize)) := by
          simp only [List.length_take, List.length_drop]
          simp only [hashBlockSize] at *
          omega
        rw [hlen3]
        have hout3 : out ++ (content.drop (i * hashBlockSize)).take
            (min (pLen - n) (min hashBlockSize
              (content.length - i * hashBlockSize))) =
            (content.drop off).take (n + min (pLen - n) (min hashBlockSize
              (content.length - i * hashBlockSize))) := by
          by_cases hfull2 : n = pLen
          · have hm0 : min (pLen - n) (min hashBlockSize
                (content.length - i * hashBlockSize)) = 0 := by
              simp only [hashBlockSize] at *
              omega
            rw [hm0]
            simp [hout]
          · have halign : off + n = i * hashBlockSize := by
              simp only [hashBlockSize] at *
              omega
            rw [hout, List.take_add]
            congr 1
            rw [List.drop_drop]
            rw [halign]
        rw [hout3]
        refine ih f2 (i + 1) _ _ off0 hg2 ?_ rfl ?_
        · simp only [hashBlockSize] at *
          omega
        · intro hm
          exfalso
          omega
    · have hgeL : content.length ≤ i * hashBlockSize :=
        numBlocks_mul_ge content i (by omega)
      have hcc : ¬ f.cachedBlockIndex = some i := by
        rcases hg.cache with h0 | ⟨j, hj, hjlt, _⟩
        · rw [h0]
          simp
        · rw [hj]
          intro hcx
          have := Option.some.inj hcx
          have := lt_numBlocks_mul_lt content j hjlt
          omega
      have hlen : f.leafHashes.length ≤ i := by
        rw [hg.len_eq]
        omega
      have hrac : readAndCacheBlock H content f i = (some .eof, f) := by
        unfold readAndCacheBlock
        rw [if_neg hcc, if_pos hlen]
      simp only [readAtLoop, hrac]
      rw [if_pos (by simp)]
      have hset : i * hashBlockSize ≤ ((i + 1) + num) * hashBlockSize :=
        Nat.mul_le_mul_right _ (by omega)
      have hminL : min (i * hashBlockSize) content.length = content.length := by omega
      have hminL2 : min (((i + 1) + num) * hashBlockSize) content.length =
          content.length := by omega
      refine ⟨?_, ?_, hg⟩
      · rw [hn, hminL, hminL2]
      · rw [hout, hn, hminL, hminL2]


theorem take_min_take (l : Bytes) (pLen off : Nat) :
    (l.drop off).take (min pLen (l.length - off)) = (l.drop off).take pLen := by
  rcases Nat.le_total pLen (l.length - off) with h | h
  · rw [min_eq_left h]
  · rw [min_eq_right h]
    rw [List.take_of_length_le (by simp), List.take_of_length_le (by simp [h])]

theorem C8_read_at_equals_direct (H : Bytes → Bytes) (content : Bytes)
    (f : EfiImageFile) (pLen off : Nat)
    (hg : GoodState H content f) (hoff : off < content.length) :
    (ReadAt H content f pLen off).1.1 = ((content.drop off).take pLen).length ∧
    (ReadAt H content f pLen off).2.1 = (content.drop off).take pLen ∧
    GoodState H content (ReadAt H content f pLen off).2.2 := by
  have hstart : (off + hashBlockSize) / hashBlockSize - 1 = off / hashBlockSize := by
    unfold hashBlockSize
    omega
  have h1 : off / hashBlockSize * hashBlockSize ≤ off := Nat.div_mul_le_self off _
  have hlt : off < (off / hashBlockSize + 1) * hashBlockSize := by
    unfold hashBlockSize at *
    omega
  have hloop := readAtLoop_spec H content pLen off hoff
    ((off + pLen + hashBlockSize) / hashBlockSize - off / hashBlockSize) f
    (off / hashBlockSize) 0 []
    (off - off / hashBlockSize * hashBlockSize) hg
    (by unfold hashBlockSize at *; omega)
    (by simp)
    (fun _ => Or.inr ⟨h1, hlt, rfl⟩)
  have hexp : min pLen (min ((off / hashBlockSize +
      ((off + pLen + hashBlockSize) / hashBlockSize - off / hashBlockSize)) *
        hashBlockSize) content.length - off) = min pLen (content.length - off) := by
    unfold hashBlockSize at *
    omega
  rw [hexp] at hloop
  have hlen : ((content.drop off).take pLen).length = min pLen (content.length - off) := by
    simp only [List.length_take, List.length_drop]
  simp only [ReadAt]
  rw [hstart]
  cases hres : readAtLoop H content
      ((off + pLen + hashBlockSize) / hashBlockSize - off / hashBlockSize) f
      (off / hashBlockSize) (off - off / hashBlockSize * hashBlockSize) pLen 0 [] with
  | mk n2 rest =>
    obtain ⟨out2, f3⟩ := rest
    rw [hres] at hloop
    simp only at hloop
    obtain ⟨hn2, hout2, hg3⟩ := hloop
    by_cases hz : n2 = 0
    · rw [if_pos hz]
      refine ⟨?_, ?_, hg3⟩
      · show (0 : Nat) = _
        rw [hlen]
        omega
      · show out2 = _
        rw [hout2, take_min_take]
    · rw [if_neg hz]
      refine ⟨?_, ?_, hg3⟩
      · show n2 = _
        rw [hn2, hlen]
      · show out2 = _
        rw [hout2, take_min_take]

/-- C8: with stable file contents, reading through the verifying wrapper
returns exactly the bytes (and the byte count) of a direct read of the
underlying file at the same offset, for every offset inside the file and
every buffer length; the consistent-state invariant is preserved, so this
holds across any sequence of reads. -/
theorem C8_read_through_wrapper (H : Bytes → Bytes) (content : Bytes)
    (f : EfiImageFile) (pLen off : Nat)
    (hg : GoodState H content f) (hoff : off < content.length) :
    (ReadAt H content f pLen off).1.1 = ((content.drop off).take pLen).length ∧
    (ReadAt H content f pLen off).2.1 = (content.drop off).take pLen ∧
    GoodState H content (ReadAt H content f pLen off).2.2 :=
  C8_read_at_equals_direct H content f pLen off hg hoff

/-- Witness for C8 on a tiny concrete file. -/
theorem C8_read_through_wrapper_witness :
    (ReadAt (fun l => [l.length % 256]) [5, 6, 7]
        (newEfiImageFile [5, 6, 7]) 5 1).1.1 =
      ((([5, 6, 7] : Bytes).drop 1).take 5).length ∧
    (ReadAt (fun l => [l.length % 256]) [5, 6, 7]
        (newEfiImageFile [5, 6, 7]) 5 1).2.1 =
      (([5, 6, 7] : Bytes).drop 1).take 5 := by
  have h := C8_read_through_wrapper (fun l => [l.length % 256]) [5, 6, 7]
    (newEfiImageFile [5, 6, 7]) 5 1
    (goodState_new (fun l => [l.length % 256]) [5, 6, 7]) (by decide)
  exact ⟨h.1, h.2.1⟩

/-- Evaluation of `readAndCacheBlock` when the requested block is cached. -/
theorem rac_cached (H : Bytes → Bytes) (content : Bytes) (f : EfiImageFile) (i : Nat)
    (hc : f.cachedBlockIndex = some i) :
    readAndCacheBlock H content f i = (none, f) := by
  rw [readAndCacheBlock, if_pos hc]

theorem rac_record (H : Bytes → Bytes) (content : Bytes) (f : EfiImageFile) (i n : Nat)
    (blk h : Bytes)
    (hc : ¬f.cachedBlockIndex = some i)
    (hlen : ¬f.leafHashes.length ≤ i)
    (hn : min hashBlockSize (content.length - i * hashBlockSize) = n)
    (hn0 : ¬n = 0)
    (hblk : (content.drop (i * hashBlockSize)).take hashBlockSize = blk)
    (hget : lhGet f.leafHashes i = none)
    (hh : H (blk ++ List.replicate (hashBlockSize - n) 0) = h) :
    readAndCacheBlock H content f i =
      ((if n < hashBlockSize then some ReadErr.unexpectedEOF else none),
       ⟨lhSet f.leafHashes i (some h), some i, blk, f.sz⟩) := by
  rw [readAndCacheBlock, if_neg hc, if_neg hlen, hn]
  dsimp only
  rw [if_neg hn0, hblk, hget, hh]

theorem rac_mismatch (H : Bytes → Bytes) (content : Bytes) (f : EfiImageFile) (i n : Nat)
    (blk recorded : Bytes)
    (hc : ¬f.cachedBlockIndex = some i)
    (hlen : ¬f.leafHashes.length ≤ i)
    (hn : min hashBlockSize (content.length - i * hashBlockSize) = n)
    (hn0 : ¬n = 0)
    (hblk : (content.drop (i * hashBlockSize)).take hashBlockSize = blk)
    (hget : lhGet f.leafHashes i = some recorded)
    (hne : ¬H (blk ++ List.replicate (hashBlockSize - n) 0) = recorded) :
    readAndCacheBlock H content f i =
      (some (ReadErr.hashMismatch i), ⟨f.leafHashes, some i, blk, f.sz⟩) := by
  rw [readAndCacheBlock, if_neg hc, if_neg hlen, hn]
  dsimp only
  rw [if_neg hn0, hblk, hget]
  dsimp only
  rw [if_neg hne]

theorem readAtLoop_zero (H : Bytes → Bytes) (content : Bytes) (f : EfiImageFile)
    (i off0 pLen n : Nat) (out : Bytes) :
    readAtLoop H content 0 f i off0 pLen n out = (n, out, f) := rfl

theorem readAtLoop_succ_eq (H : Bytes → Bytes) (content : Bytes) (num : Nat)
    (f : EfiImageFile) (i off0 pLen n : Nat) (out : Bytes) :
    readAtLoop H content (num + 1) f i off0 pLen n out =
      match readAndCacheBlock H content f i with
      | (err, f2) =>
        if err ≠ none ∧ err ≠ some ReadErr.unexpectedEOF then (n, out, f2)
        else
          let data1 := f2.cachedBlock
          let data2 := if n = 0 then data1.drop off0 else data1
          let sz := pLen - n
          let data3 := if sz < data2.length then data2.take sz else data2
          readAtLoop H content num f2 (i + 1) off0 pLen (n + data3.length)
            (out ++ data3) := rfl

theorem readAtLoop_one_break (H : Bytes → Bytes) (content : Bytes) (f : EfiImageFile)
    (i off0 pLen n : Nat) (out : Bytes) (err : Option ReadErr) (f2 : EfiImageFile)
    (h : readAndCacheBlock H content f i = (err, f2))
    (hbrk : err ≠ none ∧ err ≠ some ReadErr.unexpectedEOF) :
    readAtLoop H content 1 f i off0 pLen n out = (n, out, f2) := by
  show readAtLoop H content (0 + 1) f i off0 pLen n out = (n, out, f2)
  rw [readAtLoop_succ_eq, h]
  dsimp only
  rw [if_pos hbrk]

theorem readAtLoop_one_cont (H : Bytes → Bytes) (content : Bytes) (f : EfiImageFile)
    (i off0 : Nat) (out : Bytes) (err : Option ReadErr) (f2 : EfiImageFile)
    (h : readAndCacheBlock H content f i = (err, f2))
    (hcont : ¬(err ≠ none ∧ err ≠ some ReadErr.unexpectedEOF)) :
    readAtLoop H content 1 f i off0 1 0 out =
      (let data2 := f2.cachedBlock.drop off0
       let data3 := if 1 < data2.length then data2.take 1 else data2
       (data3.length, out ++ data3, f2)) := by
  show readAtLoop H content (0 + 1) f i off0 1 0 out = _
  rw [readAtLoop_succ_eq, h]
  dsimp only
  rw [if_neg hcont]
  rw [if_pos (rfl : (0 : Nat) = 0), Nat.sub_zero, readAtLoop_zero, Nat.zero_add]

theorem ReadAt_eval_zero (H : Bytes → Bytes) (content : Bytes) (f : EfiImageFile)
    (n : Nat) (out : Bytes) (f2 : EfiImageFile)
    (h : readAtLoop H content 1 f 0 0 1 0 [] = (n, out, f2)) :
    ReadAt H content f 1 0 =
      if n = 0 then ((0, some ReadErr.eof), out, f2) else ((n, none), out, f2) := by
  rw [ReadAt, hashBlockSize]
  norm_num
  rw [h]

theorem ReadAt_eval_4096 (H : Bytes → Bytes) (content : Bytes) (f : EfiImageFile)
    (n : Nat) (out : Bytes) (f2 : EfiImageFile)
    (h : readAtLoop H content 1 f 1 0 1 0 [] = (n, out, f2)) :
    ReadAt H content f 1 4096 =
      if n = 0 then ((0, some ReadErr.eof), out, f2) else ((n, none), out, f2) := by
  rw [ReadAt, hashBlockSize]
  norm_num
  rw [h]

/-- Digest used by the C4 demonstration: the first byte of the (padded)
block, which distinguishes the two contents below. -/
def c4H : Bytes → Bytes := fun l => [l.headD 0]

/-- Original file contents: two blocks (4096 bytes of 7, then one 7). -/
def c4Content1 : Bytes := List.replicate 4097 7

/-- Changed file contents: the first byte becomes 9. -/
def c4Content2 : Bytes := 9 :: List.replicate 4096 7

def c4F0 : EfiImageFile := ⟨[none, none], none, [], 4097⟩

def c4F1 : EfiImageFile := ⟨[some [7], none], some 0, List.replicate 4096 7, 4097⟩

def c4F2 : EfiImageFile := ⟨[some [7], some [7]], some 1, [7], 4097⟩

def c4F3 : EfiImageFile :=
  ⟨[some [7], some [7]], some 0, 9 :: List.replicate 4095 7, 4097⟩

theorem c4_len1 : c4Content1.length = 4097 := by
  rw [c4Content1, List.length_replicate]

theorem c4_len2 : c4Content2.length = 4097 := by
  rw [c4Content2, List.length_cons, List.length_replicate]

theorem c4_rep_cons : List.replicate 4096 (7 : Nat) = 7 :: List.replicate 4095 7 := by
  rw [show (4096 : Nat) = 4095 + 1 from rfl, List.replicate_succ]

theorem c4_new : newEfiImageFile c4Content1 = c4F0 := by
  rw [newEfiImageFile, c4_len1, hashBlockSize]
  norm_num
  rfl

theorem c4_blk0_1 : (c4Content1.drop (0 * hashBlockSize)).take hashBlockSize =
    List.replicate 4096 7 := by
  rw [Nat.zero_mul, List.drop_zero, c4Content1, hashBlockSize, List.take_replicate]
  norm_num

theorem c4_blk1_1 : (c4Content1.drop (1 * hashBlockSize)).take hashBlockSize = [7] := by
  rw [Nat.one_mul, c4Content1, hashBlockSize, List.drop_replicate, List.take_replicate,
    show (4097 - 4096 : Nat) = 1 from rfl, show min 4096 1 = 1 from by norm_num,
    List.replicate_one]

theorem c4_blk0_2 : (c4Content2.drop (0 * hashBlockSize)).take hashBlockSize =
    9 :: List.replicate 4095 7 := by
  rw [Nat.zero_mul, List.drop_zero, c4Content2, hashBlockSize,
    show (4096 : Nat) = 4095 + 1 from rfl, List.take_succ_cons, List.take_replicate,
    show min 4095 (4095 + 1) = 4095 from by norm_num]

theorem c4_rac1 : readAndCacheBlock c4H c4Content1 c4F0 0 = (none, c4F1) := by
  rw [rac_record c4H c4Content1 c4F0 0 4096 (List.replicate 4096 7) [7]
    (by decide) (by decide)
    (by rw [c4_len1, hashBlockSize]; norm_num) (by norm_num)
    c4_blk0_1 rfl
    (by rw [hashBlockSize, Nat.sub_self, List.replicate_zero, List.append_nil,
          c4_rep_cons]
        rfl)]
  rw [if_neg (by rw [hashBlockSize]; exact Nat.lt_irrefl 4096)]
  rfl

theorem c4_rac2 : readAndCacheBlock c4H c4Content1 c4F1 1 =
    (some .unexpectedEOF, c4F2) := by
  rw [rac_record c4H c4Content1 c4F1 1 1 [7] [7]
    (by decide) (by decide)
    (by rw [c4_len1, hashBlockSize]; norm_num) (by norm_num)
    c4_blk1_1 rfl rfl]
  rw [if_pos (by rw [hashBlockSize]; norm_num)]
  rfl

theorem c4_rac3 : readAndCacheBlock c4H c4Content2 c4F2 0 =
    (some (.hashMismatch 0), c4F3) := by
  rw [rac_mismatch c4H c4Content2 c4F2 0 4096 (9 :: List.replicate 4095 7) [7]
    (by decide) (by decide)
    (by rw [c4_len2, hashBlockSize]; norm_num) (by norm_num)
    c4_blk0_2 rfl (by decide)]
  rfl

theorem c4_rac4 : readAndCacheBlock c4H c4Content2 c4F3 0 = (none, c4F3) :=
  rac_cached c4H c4Content2 c4F3 0 rfl

theorem c4_take1 : (9 :: List.replicate 4095 (7 : Nat)).take 1 = [9] := by
  rw [show (1 : Nat) = 0 + 1 from rfl, List.take_succ_cons, List.take_zero]

theorem c4_loop1 : readAtLoop c4H c4Content1 1 c4F0 0 0 1 0 [] = (1, [7], c4F1) := by
  rw [readAtLoop_one_cont c4H c4Content1 c4F0 0 0 [] none c4F1 c4_rac1 (by decide)]
  dsimp only
  rw [show c4F1.cachedBlock = List.replicate 4096 7 from rfl, List.drop_zero,
    List.length_replicate, if_pos (by norm_num : (1 : Nat) < 4096),
    List.take_replicate, show min 1 4096 = 1 from by norm_num, List.replicate_one]
  rfl

theorem c4_loop2 : readAtLoop c4H c4Content1 1 c4F1 1 0 1 0 [] = (1, [7], c4F2) := by
  rw [readAtLoop_one_cont c4H c4Content1 c4F1 1 0 [] (some .unexpectedEOF) c4F2
    c4_rac2 (by decide)]
  dsimp only
  rw [show c4F2.cachedBlock = [(7 : Nat)] from rfl, List.drop_zero,
    show ([(7 : Nat)]).length = 1 from rfl, if_neg (by norm_num : ¬(1 : Nat) < 1)]
  rfl

theorem c4_loop3 : readAtLoop c4H c4Content2 1 c4F2 0 0 1 0 [] = (0, [], c4F3) := by
  rw [readAtLoop_one_break c4H c4Content2 c4F2 0 0 1 0 [] (some (.hashMismatch 0))
    c4F3 c4_rac3 (by decide)]

theorem c4_loop4 : readAtLoop c4H c4Content2 1 c4F3 0 0 1 0 [] = (1, [9], c4F3) := by
  rw [readAtLoop_one_cont c4H c4Content2 c4F3 0 0 [] none c4F3 c4_rac4 (by decide)]
  dsimp only
  rw [show c4F3.cachedBlock = 9 :: List.replicate 4095 7 from rfl, List.drop_zero,
    List.length_cons, List.length_replicate,
    if_pos (by norm_num : (1 : Nat) < 4095 + 1), c4_take1]
  rfl

theorem c4_step1 : ReadAt c4H c4Content1 (newEfiImageFile c4Content1) 1 0 =
    ((1, none), [7], c4F1) := by
  rw [c4_new, ReadAt_eval_zero c4H c4Content1 c4F0 1 [7] c4F1 c4_loop1,
    if_neg (by norm_num : ¬(1 : Nat) = 0)]

theorem c4_step2 : ReadAt c4H c4Content1 c4F1 1 4096 = ((1, none), [7], c4F2) := by
  rw [ReadAt_eval_4096 c4H c4Content1 c4F1 1 [7] c4F2 c4_loop2,
    if_neg (by norm_num : ¬(1 : Nat) = 0)]

theorem c4_step3 : ReadAt c4H c4Content2 c4F2 1 0 = ((0, some .eof), [], c4F3) := by
  rw [ReadAt_eval_zero c4H c4Content2 c4F2 0 [] c4F3 c4_loop3, if_pos rfl]

theorem c4_step4 : ReadAt c4H c4Content2 c4F3 1 0 = ((1, none), [9], c4F3) := by
  rw [ReadAt_eval_zero c4H c4Content2 c4F3 1 [9] c4F3 c4_loop4,
    if_neg (by norm_num : ¬(1 : Nat) = 0)]

/-- C4: the hash-mismatch error of `readAndCacheBlock` never reaches the
caller of `ReadAt`.  After block 0's leaf hash is recorded and the block's
bytes change, re-reading block 0 yields `(0, io.EOF)` — the mismatch error
is swallowed by the loop (the Go code tests its never-assigned named
return) — and because the block was cached before the failed comparison,
the very next read serves the changed data as a successful read with no
error. -/
theorem C4_mismatch_swallowed :
    (ReadAt c4H c4Content1 (newEfiImageFile c4Content1) 1 0).1 = (1, none) ∧
    (ReadAt c4H c4Content1
      (ReadAt c4H c4Content1 (newEfiImageFile c4Content1) 1 0).2.2 1 4096).1 = (1, none) ∧
    (ReadAt c4H c4Content2
      (ReadAt c4H c4Content1
        (ReadAt c4H c4Content1 (newEfiImageFile c4Content1) 1 0).2.2 1 4096).2.2
      1 0).1 = (0, some .eof) ∧
    (ReadAt c4H c4Content2
      (ReadAt c4H c4Content2
        (ReadAt c4H c4Content1
          (ReadAt c4H c4Content1 (newEfiImageFile c4Content1) 1 0).2.2 1 4096).2.2
        1 0).2.2
      1 0).1 = (1, none) ∧
    (ReadAt c4H c4Content2
      (ReadAt c4H c4Content2
        (ReadAt c4H c4Content1
          (ReadAt c4H c4Content1 (newEfiImageFile c4Content1) 1 0).2.2 1 4096).2.2
        1 0).2.2
      1 0).2.1 = [9] := by
  rw [c4_step1]
  dsimp only
  rw [c4_step2]
  dsimp only
  rw [c4_step3]
  dsimp only
  rw [c4_step4]
  exact ⟨rfl, rfl, rfl, rfl, rfl⟩

/-- A flat file system: association list from path to contents. -/
def FileSys := List (String × Bytes)

/-- Path lookup in the modelled file system. -/
def fsLookup : FileSys → String → Option Bytes
  | [], _ => none
  | (p, c) :: rest, q => if p = q then some c else fsLookup rest q

/-- Modelled from the spec: the trusted-assets store holds the list of
trusted root hashes (`loaded`) and the hashes recorded this run
(`assets.go` is not part of this source tree). -/
structure TrustedAssets where
  loaded : List Bytes
  newAssets : List Bytes

/-- Modelled from the spec: split a byte string into `sz`-byte chunks
(fuel-driven; any fuel of at least the number of chunks gives the same
result). -/
def chunksOf (sz : Nat) : Nat → Bytes → List Bytes
  | 0, _ => []
  | _, [] => []
  | fuel + 1, b => b.take sz :: chunksOf sz fuel (b.drop sz)

/-- Modelled from the spec: zero-pad a block to `n` bytes. -/
def padTo (n : Nat) (b : Bytes) : Bytes :=
  b ++ List.replicate (n - b.length) 0

/-- Modelled from the spec: the leaf hashes of a file, one per
zero-padded `hashBlockSize` block. -/
def blockLeafHashes (H : Bytes → Bytes) (content : Bytes) : List Bytes :=
  (chunksOf hashBlockSize (content.length + 1) content).map
    (fun b => H (padTo hashBlockSize b))

/-- Modelled from the spec: fold one level of the hash tree at a time —
concatenate the level's hashes, re-chunk into blocks and hash each —
until a single root hash remains; a single hash is its own root. -/
def foldRootAux (H : Bytes → Bytes) : Nat → List Bytes → Bytes
  | _, [] => H []
  | _, [h] => h
  | 0, hs => H hs.flatten
  | fuel + 1, hs =>
    foldRootAux H fuel
      ((chunksOf hashBlockSize (hs.flatten.length + 1) hs.flatten).map
        (fun b => H (padTo hashBlockSize b)))

/-- Modelled from the spec: the root hash of a list of leaf hashes. -/
def foldRoot (H : Bytes → Bytes) (leaves : List Bytes) : Bytes :=
  foldRootAux H leaves.length leaves

/-- Modelled from the spec: `checkLeafHashes` accepts a file iff the
root hash folded from its leaf hashes is in the trusted store. -/
def checkLeafHashes (H : Bytes → Bytes) (assets : TrustedAssets)
    (leaves : List Bytes) : Bool :=
  assets.loaded.contains (foldRoot H leaves)

/-- Modelled from the spec: the fields of the kernel manager consumed
by `ResealKey` (`kernel.go` is not part of this source tree). -/
structure KernelManager where
  sourceDir : String
  targetDir : String
  sourceKernels : List String
  targetKernels : List String

/-- Whether the file at `p` passes the close-time integrity check of
`efiImageFile`: its hash-tree root is in the trusted store. -/
def trustedRootB (H : Bytes → Bytes) (assets : TrustedAssets) (fs : FileSys)
    (p : String) : Bool :=
  match fsLookup fs p with
  | none => false
  | some c => checkLeafHashes H assets (blockLeafHashes H c)

/-- State threaded through profile computation
(`pcrProfileComputeContext`): the paths that failed the integrity check
and the open-file count. -/
structure PcrCtx where
  failedPaths : List String
  nOpen : Nat

/-- Open, read and close each image in turn, as the secboot profile
functions do (modelled from the spec): `Open` bumps `nOpen`; `Close`
checks the hash-tree root against the store, appends the path to
`failedPaths` on failure, and drops `nOpen`.  A missing file aborts
profile computation. -/
def visitImages (H : Bytes → Bytes) (assets : TrustedAssets) (fs : FileSys) :
    List String → PcrCtx → Option PcrCtx
  | [], ctx => some ctx
  | p :: rest, ctx =>
    match fsLookup fs p with
    | none => none
    | some c =>
      let opened : PcrCtx := ⟨ctx.failedPaths, ctx.nOpen + 1⟩
      let trusted := checkLeafHashes H assets (blockLeafHashes H c)
      let closed : PcrCtx :=
        ⟨if trusted then opened.failedPaths else opened.failedPaths ++ [p],
         opened.nOpen - 1⟩
      visitImages H assets fs rest closed

/-- `keyFilePath` of `reseal.go`. -/
def keyFilePath : String := "device/fde/cloudimg-rootfs.sealed-key"

/-- The image paths one pass of profile computation opens: the shim
roots that exist (`shimSource/shimBase.signed`, then
`esp/EFI/vendor/shimBase`), each followed by every source and target
kernel, in the order `ResealKey` builds the load sequences. -/
def resealOpenedPaths (km : KernelManager) (esp shimSource vendor arch : String)
    (fs : FileSys) : List String :=
  let shimBase := "shim" ++ arch ++ ".efi"
  let rootPaths :=
    [pathJoin shimSource (shimBase ++ ".signed"),
     pathJoin (pathJoin (pathJoin esp "EFI") vendor) shimBase].filter
      (fun p => (fsLookup fs p).isSome)
  let kernelPaths :=
    km.sourceKernels.map (pathJoin km.sourceDir) ++
      km.targetKernels.map (pathJoin km.targetDir)
  rootPaths.flatMap (fun r => r :: kernelPaths)

/-- The distinguishable error outcomes of `ResealKey`. -/
inductive ResealErr where
  | authKey
  | profileErr
  | leakedFiles
  | untrustedAssets (paths : List String)
  | readKey
  | noTpm
  | updateErr
  | writeErr
deriving DecidableEq, Repr

/-- Result of `ResealKey`: the returned error (`none` is success) and
how many times the sealed-key file was rewritten. -/
structure ResealOutcome where
  err : Option ResealErr
  keyWrites : Nat
deriving DecidableEq, Repr

/-- `ResealKey`, translated from `reseal.go`: no-op if the sealed-key
file is missing; otherwise compose the load sequences, obtain the auth
key, compute the PCR profile (two passes over the images, PCR 4 and
PCR 7, via `visitImages`), and gate on leaked files and failed paths
before reading, updating and atomically rewriting the sealed key.  The
external services (kernel keyring, sealed-key file parsing, TPM, policy
update, atomic write) are abstracted to success flags. -/
def ResealKey (H : Bytes → Bytes) (assets : TrustedAssets) (km : KernelManager)
    (esp shimSource vendor arch : String) (fs : FileSys)
    (authKeyOk readKeyOk tpmOk updateOk writeOk : Bool) : ResealOutcome :=
  if (fsLookup fs (pathJoin esp keyFilePath)).isSome = false then ⟨none, 0⟩
  else
    let opened := resealOpenedPaths km esp shimSource vendor arch fs
    if authKeyOk = false then ⟨some .authKey, 0⟩
    else
      match visitImages H assets fs (opened ++ opened) ⟨[], 0⟩ with
      | none => ⟨some .profileErr, 0⟩
      | some ctx =>
        if ctx.nOpen ≠ 0 then ⟨some .leakedFiles, 0⟩
        else if 0 < ctx.failedPaths.length then
          ⟨some (.untrustedAssets ctx.failedPaths), 0⟩
        else if readKeyOk = false then ⟨some .readKey, 0⟩
        else if tpmOk = false then ⟨some .noTpm, 0⟩
        else if updateOk = false then ⟨some .updateErr, 0⟩
        else if writeOk = false then ⟨some .writeErr, 0⟩
        else ⟨none, 1⟩

/-- When every visited image exists, profile computation succeeds, the
failed paths are exactly the visited paths whose root hash is
untrusted (in visiting order), and no file handle leaks. -/
theorem visitImages_spec (H : Bytes → Bytes) (assets : TrustedAssets) (fs : FileSys) :
    ∀ (ps : List String) (ctx : PcrCtx),
      (∀ p ∈ ps, (fsLookup fs p).isSome = true) →
      visitImages H assets fs ps ctx =
        some ⟨ctx.failedPaths ++ ps.filter (fun p => !trustedRootB H assets fs p),
              ctx.nOpen⟩ := by
  intro ps
  induction ps with
  | nil =>
    intro ctx _
    simp [visitImages]
  | cons p rest ih =>
    intro ctx hex
    have hp : (fsLookup fs p).isSome = true := hex p (List.mem_cons_self p rest)
    have hrest : ∀ q ∈ rest, (fsLookup fs q).isSome = true := by
      intro q hq
      exact hex q (List.mem_cons_of_mem p hq)
    cases hc : fsLookup fs p with
    | none =>
      rw [hc] at hp
      exact absurd hp (by simp)
    | some c =>
      have htr : trustedRootB H assets fs p =
          checkLeafHashes H assets (blockLeafHashes H c) := by
        simp only [trustedRootB, hc]
      rw [visitImages, hc]
      dsimp only
      by_cases ht : checkLeafHashes H assets (blockLeafHashes H c) = true
      · rw [if_pos ht, ih _ hrest]
        rw [List.filter_cons_of_neg]
        · exact congrArg some (congrArg₂ PcrCtx.mk rfl (Nat.add_sub_cancel ..))
        · simp [htr, ht]
      · rw [if_neg ht, ih _ hrest]
        rw [List.filter_cons_of_pos]
        · refine congrArg some (congrArg₂ PcrCtx.mk ?_ (Nat.add_sub_cancel ..))
          simp
        · simp only [htr]
          simp at ht
          simp [ht]

/-- C1: if `ResealKey` runs while the sealed-key file under the ESP
exists and, after the PCR profile is composed, some opened image's
computed hash-tree root is not in the trusted-assets store, then it
returns the untrusted-assets error naming exactly the paths of the
failing images (each once per profile pass), and the sealed-key file is
not rewritten. -/
theorem C1_reseal_untrusted_error_and_no_write
    (H : Bytes → Bytes) (assets : TrustedAssets) (km : KernelManager)
    (esp shimSource vendor arch : String) (fs : FileSys)
    (readKeyOk tpmOk updateOk writeOk : Bool)
    (hkey : (fsLookup fs (pathJoin esp keyFilePath)).isSome = true)
    (hex : ∀ p ∈ resealOpenedPaths km esp shimSource vendor arch fs,
        (fsLookup fs p).isSome = true)
    (hbad : ∃ p ∈ resealOpenedPaths km esp shimSource vendor arch fs,
        trustedRootB H assets fs p = false) :
    ResealKey H assets km esp shimSource vendor arch fs true readKeyOk tpmOk
        updateOk writeOk =
      ⟨some (.untrustedAssets
        ((resealOpenedPaths km esp shimSource vendor arch fs ++
          resealOpenedPaths km esp shimSource vendor arch fs).filter
            (fun p => !trustedRootB H assets fs p))), 0⟩ := by
  have hex2 : ∀ p ∈ (resealOpenedPaths km esp shimSource vendor arch fs ++
      resealOpenedPaths km esp shimSource vendor arch fs),
      (fsLookup fs p).isSome = true := by
    intro p hp
    rcases List.mem_append.mp hp with h | h
    · exact hex p h
    · exact hex p h
  rw [ResealKey]
  rw [if_neg (by rw [hkey]; exact fun hcon => Bool.noConfusion hcon)]
  dsimp only
  rw [if_neg (fun hcon => Bool.noConfusion hcon)]
  rw [visitImages_spec H assets fs _ _ hex2]
  dsimp only
  rw [if_neg (fun hcon => hcon rfl)]
  rw [if_pos ?hlen]
  case hlen =>
    obtain ⟨p, hpmem, hpbad⟩ := hbad
    have hpf : p ∈ (resealOpenedPaths km esp shimSource vendor arch fs ++
        resealOpenedPaths km esp shimSource vendor arch fs).filter
          (fun p => !trustedRootB H assets fs p) := by
      refine List.mem_filter.mpr ⟨List.mem_append_left _ hpmem, ?_⟩
      rw [hpbad]
      rfl
    rw [List.nil_append]
    exact List.length_pos_of_mem hpf
  rw [List.nil_append]

/-- Digest for the C1 witness: the first byte of the padded block. -/
def c1H : Bytes → Bytes := fun l => [l.headD 0]

/-- C1 witness store: only the root hash `[1]` is trusted. -/
def c1Assets : TrustedAssets := ⟨[[1]], []⟩

/-- C1 witness kernel manager: one source kernel, no target kernels. -/
def c1Km : KernelManager := ⟨"/usr/lib/linux", "/boot/efi/EFI/ubuntu", ["k1"], []⟩

/-- C1 witness file system: the sealed key exists, the signed shim and
the kernel are trusted content, the ESP shim is not. -/
def c1Fs : FileSys :=
  [("/boot/efi/device/fde/cloudimg-rootfs.sealed-key", [0]),
   ("/usr/lib/shim/shimx64.efi.signed", [1]),
   ("/boot/efi/EFI/ubuntu/shimx64.efi", [9]),
   ("/usr/lib/linux/k1", [1])]

/-- Witness for C1: the untrusted ESP shim is reported twice (once per
profile pass) and the key is not rewritten. -/
theorem C1_reseal_untrusted_error_and_no_write_witness :
    ResealKey c1H c1Assets c1Km "/boot/efi" "/usr/lib/shim" "ubuntu" "x64" c1Fs
        true true true true true =
      ⟨some (.untrustedAssets
        ["/boot/efi/EFI/ubuntu/shimx64.efi", "/boot/efi/EFI/ubuntu/shimx64.efi"]),
       0⟩ := by
  rw [C1_reseal_untrusted_error_and_no_write c1H c1Assets c1Km "/boot/efi"
    "/usr/lib/shim" "ubuntu" "x64" c1Fs true true true true
    (by decide) (by decide) (by decide)]
  decide

end Nullboot
